import Mathlib

/-!
Shallow embedding of the Multiverse component of chain-libs
(src/chain-impl-mockchain/src/multiverse.rs) together with the contracts
of its external collaborators (block store, ledger), and proofs about the
garbage collector, the pinning discipline and state reconstruction.

Shared ownership (`Arc`/`Weak`) is modelled explicitly: every `Arc::new`
allocation receives a fresh identifier (a natural number); the state
table stores entries referring to identifiers, a heap maps identifiers to
payloads, and the multiset of externally held `Ref` values (pins) is
tracked next to the two maps.  A weak pointer upgrades exactly when its
identifier has a positive strong count (number of `Retained` table
occurrences plus number of live pins).  Rust panics and
`unreachable_unchecked` surface as `none` / explicit panic values.
-/

namespace MV

/-- Block identifiers (`HeaderId`): opaque hashes, modelled as naturals,
with `0` playing the role of the all-zero hash. -/
abbrev HeaderId := Nat

/-- Modelled from the spec: `HeaderId::zero_hash()` is the distinguished
"no parent" sentinel value (the `HeaderId` type lives outside src/). -/
def zeroHash : HeaderId := 0

/-- Chain lengths (`ChainLength(u32)` in the source).  All scenarios in
this development stay far below `2 ^ 32`, where `u32` arithmetic agrees
with `Nat` arithmetic. -/
abbrev ChainLength := Nat

/-- Modelled from the spec: `ChainLength::nth_ancestor(k)` returns
`length - k` when that subtraction does not go below zero and nothing
otherwise (the `ChainLength` methods live outside src/). -/
def nthAncestor (l : ChainLength) (n : Nat) : Option ChainLength :=
  if n ≤ l then some (l - n) else none

/-- Modelled from the spec: `ChainLength::increase` is successor (a child
sits one length above its parent). -/
def increase (l : ChainLength) : ChainLength := l + 1

/-- Keep all states that are this close to the longest chain
(`SUFFIX_TO_KEEP` in the source). -/
def SUFFIX_TO_KEEP : Nat := 50

/-- Cache entries of the state table (`GcEntry` in the source); the
argument is the identifier of the shared allocation the entry points to.
`Retained` holds the allocation strongly, `Collectable` only weakly. -/
inductive GcEntry where
  | Retained (arc : Nat)
  | Collectable (arc : Nat)
  deriving DecidableEq, Repr

/-- Allocation identifier referenced by a cache entry. -/
def GcEntry.arcOf : GcEntry → Nat
  | .Retained a => a
  | .Collectable a => a

/-- In-place downgrade performed at the start of `GcEntry::collect`: a
`Retained` entry is replaced by a `Collectable` entry observing the same
allocation. -/
def GcEntry.downgrade : GcEntry → GcEntry
  | .Retained a => .Collectable a
  | .Collectable a => .Collectable a

/-- Direct model of `GcEntry::collect`.  The entry is first downgraded in
place; the subsequent `match` has an `unsafe unreachable_unchecked` arm
for `Retained`, modelled as `none`.  `strong` is the strong count
observed on the weak pointer at that moment (an effectful read in the
source, passed in explicitly here).  Returns the updated entry and
whether the state is dead (zero strong holders). -/
def GcEntry.collect (strong : Nat) (e : GcEntry) : Option (GcEntry × Bool) :=
  match e.downgrade with
  | .Collectable a => some (.Collectable a, strong == 0)
  | .Retained _ => none

/-- Lookup in an association list, first binding wins (models `HashMap`
lookup; the key-uniqueness representation invariant is stated separately
where proofs need it). -/
def alook {α : Type} : List (Nat × α) → Nat → Option α
  | [], _ => none
  | (k0, v) :: r, k => if k0 = k then some v else alook r k

/-- Association-list update with `HashMap::insert` semantics: replace the
binding if the key is present, append it otherwise. -/
def tset {α : Type} : List (Nat × α) → Nat → α → List (Nat × α)
  | [], k, v => [(k, v)]
  | (k0, v0) :: r, k, v => if k0 = k then (k, v) :: r else (k0, v0) :: tset r k v

/-- Association-list removal (`HashMap::remove` / `Entry::remove`). -/
def tdel {α : Type} : List (Nat × α) → Nat → List (Nat × α)
  | [], _ => []
  | (k0, v0) :: r, k => if k0 = k then r else (k0, v0) :: tdel r k

/-- The secondary index `BTreeMap<ChainLength, HashSet<HeaderId>>` is
modelled as an association list sorted by strictly increasing key (the
`BTreeMap` representation invariant), each bucket a duplicate-free list. -/
abbrev LengthIdx := List (ChainLength × List HeaderId)

/-- Model of `states_by_chain_length.entry(l).or_insert_with(HashSet::new).insert(k)`:
sorted insertion of `k` into the bucket of `l`. -/
def idxInsert : LengthIdx → ChainLength → HeaderId → LengthIdx
  | [], l, k => [(l, [k])]
  | (l0, s) :: r, l, k =>
    if l < l0 then (l, [k]) :: (l0, s) :: r
    else if l = l0 then (l0, if k ∈ s then s else s ++ [k]) :: r
    else (l0, s) :: idxInsert r l k

/-- Bucket lookup in the sorted index. -/
def idxLook : LengthIdx → ChainLength → Option (List HeaderId)
  | [], _ => none
  | (l0, s) :: r, l => if l0 = l then some s else idxLook r l

/-- A pin handle (`Ref` in the source): a block id paired with the
identifier of the shared allocation it grips. -/
structure Ref where
  hash : HeaderId
  arc : Nat
  deriving DecidableEq, Repr

/-- The multiverse (`Multiverse<State>` in the source) together with the
explicit ownership model: `heap` holds the payloads of `Arc` allocations,
`pins` the multiset of allocation ids gripped by live external `Ref`
values, and `nextArc` the next fresh allocation identifier. -/
structure Multiverse (σ : Type) where
  statesByHash : List (HeaderId × GcEntry)
  statesByChainLength : LengthIdx
  heap : List (Nat × σ)
  pins : List Nat
  nextArc : Nat
  deriving Repr

/-- Model of `Multiverse::new`. -/
def Multiverse.new (σ : Type) : Multiverse σ := ⟨[], [], [], [], 0⟩

/-- Number of `Retained` table entries holding allocation `a`. -/
def tableStrong (t : List (HeaderId × GcEntry)) (a : Nat) : Nat :=
  (t.filter (fun p => p.2 == GcEntry.Retained a)).length

/-- Strong count of allocation `a`: strong table references plus live
pins. -/
def strongCount {σ : Type} (w : Multiverse σ) (a : Nat) : Nat :=
  tableStrong w.statesByHash a + w.pins.count a

/-- Model of `Multiverse::get`: a `Retained` entry always upgrades; a
`Collectable` entry upgrades exactly when its allocation still has a
positive strong count.  Returns the allocation identifier (the state
identity; the payload is read off the heap). -/
def Multiverse.get {σ : Type} (w : Multiverse σ) (k : HeaderId) : Option Nat :=
  match alook w.statesByHash k with
  | none => none
  | some (.Retained a) => some a
  | some (.Collectable a) => if strongCount w a = 0 then none else some a

/-- Model of `Multiverse::get_ref`: a successful `get` wrapped into a new
externally held `Ref`, which adds one strong holder. -/
def Multiverse.getRef {σ : Type} (w : Multiverse σ) (k : HeaderId) :
    Option (Ref × Multiverse σ) :=
  match w.get k with
  | none => none
  | some a => some (⟨k, a⟩, { w with pins := a :: w.pins })

/-- Model of `Multiverse::nr_states`. -/
def Multiverse.nrStates {σ : Type} (w : Multiverse σ) : Nat := w.statesByHash.length

/-- Model of `Multiverse::insert`: index the id under `chain_length`,
allocate the state (`Arc::new`), install a `Retained` entry and return a
fresh pin on the allocation. -/
def Multiverse.insert {σ : Type} (w : Multiverse σ) (cl : ChainLength) (k : HeaderId)
    (st : σ) : Ref × Multiverse σ :=
  (⟨k, w.nextArc⟩,
   { statesByChainLength := idxInsert w.statesByChainLength cl k
     statesByHash := tset w.statesByHash k (.Retained w.nextArc)
     heap := (w.nextArc, st) :: w.heap
     pins := w.nextArc :: w.pins
     nextArc := w.nextArc + 1 })

/-- Model of `Multiverse::add`; `chainLen` plays the role of the opaque
`Ledger::chain_length`. -/
def Multiverse.add {σ : Type} (chainLen : σ → ChainLength) (w : Multiverse σ)
    (k : HeaderId) (st : σ) : Ref × Multiverse σ :=
  w.insert (chainLen st) k st

/-- Dropping one pin (RAII drop of a `Ref`): one strong holder goes away. -/
def Multiverse.dropRef {σ : Type} (w : Multiverse σ) (r : Ref) : Multiverse σ :=
  { w with pins := w.pins.erase r.arc }

/-- The `hashes.retain(..)` loop of `Multiverse::gc` over one gap bucket:
every entry is downgraded in place via `GcEntry::collect`; an entry whose
strong count is then zero is removed from the table and its id dropped
from the bucket.  A missing table entry is the
`panic!("dangling state index entry")` arm, modelled as `none`. -/
def collectBucket (pins : List Nat) :
    List HeaderId → List (HeaderId × GcEntry) →
    Option (List HeaderId × List (HeaderId × GcEntry))
  | [], t => some ([], t)
  | k :: ks, t =>
    match alook t k with
    | none => none
    | some e =>
      let t1 := tset t k e.downgrade
      match e.collect (tableStrong t1 e.arcOf + pins.count e.arcOf) with
      | none => none
      | some (_, dead) =>
        if dead then
          match collectBucket pins ks (tdel t1 k) with
          | none => none
          | some (ks', t') => some (ks', t')
        else
          match collectBucket pins ks t1 with
          | none => none
          | some (ks', t') => some (k :: ks', t')

/-- The scan loop of `Multiverse::gc` over the buckets strictly below the
threshold.  On the sorted index,
`states_by_chain_length.range_mut(scan_length..threshold).next()` with
`scan_length` advanced past every visited key yields exactly those
buckets in ascending order, and only the bucket currently visited is ever
modified, so the loop is structural recursion over that list.  `toKeep`
is the `to_keep` cursor; a bucket left empty by `retain` is removed. -/
def gcBelow (pins : List Nat) (tip : ChainLength) :
    ChainLength → LengthIdx → List (HeaderId × GcEntry) →
    Option (LengthIdx × List (HeaderId × GcEntry))
  | _, [], t => some ([], t)
  | toKeep, (l, hs) :: rest, t =>
    if toKeep ≤ l then
      match gcBelow pins tip (l + (tip - l) / 2) rest t with
      | none => none
      | some (rest', t') => some ((l, hs) :: rest', t')
    else
      match collectBucket pins hs t with
      | none => none
      | some (hs', t1) =>
        match gcBelow pins tip toKeep rest t1 with
        | none => none
        | some (rest', t') =>
          some ((if hs'.isEmpty then rest' else (l, hs') :: rest'), t')

/-- Body of `Multiverse::gc` once the tip and the threshold are known:
the buckets strictly below the threshold are processed by `gcBelow`
while the remaining buckets are untouched.  Internal panics surface as
`none`. -/
def gcRun {σ : Type} (w : Multiverse σ) (tip thr : ChainLength) :
    Option (Multiverse σ) :=
  (gcBelow w.pins tip 0
      (w.statesByChainLength.takeWhile (fun b => decide (b.1 < thr)))
      w.statesByHash).map (fun bt =>
    { w with
      statesByHash := bt.2
      statesByChainLength :=
        bt.1 ++ w.statesByChainLength.dropWhile (fun b => decide (b.1 < thr)) })

/-- The threshold test of `Multiverse::gc`:
`longest_chain.nth_ancestor(SUFFIX_TO_KEEP)`, a no-op when it does not
exist. -/
def gcWithTip {σ : Type} (w : Multiverse σ) (tip : ChainLength) :
    Option (Multiverse σ) :=
  match nthAncestor tip SUFFIX_TO_KEEP with
  | none => some w
  | some thr => gcRun w tip thr

/-- Model of `Multiverse::gc`.  `keys().next_back()` on the sorted index
is its last key; a no-op on an empty index. -/
def Multiverse.gc {σ : Type} (w : Multiverse σ) : Option (Multiverse σ) :=
  match w.statesByChainLength.getLast? with
  | none => some w
  | some (tip, _) => gcWithTip w tip

theorem gc_eq_none_case {σ : Type} (w : Multiverse σ)
    (h : w.statesByChainLength.getLast? = none) : w.gc = some w := by
  unfold Multiverse.gc
  rw [h]

theorem gc_eq_tip_case {σ : Type} (w : Multiverse σ) (tip : ChainLength)
    (bs0 : List HeaderId) (h : w.statesByChainLength.getLast? = some (tip, bs0)) :
    w.gc = gcWithTip w tip := by
  unfold Multiverse.gc
  rw [h]

theorem gcWithTip_none {σ : Type} (w : Multiverse σ) (tip : ChainLength)
    (h : nthAncestor tip SUFFIX_TO_KEEP = none) : gcWithTip w tip = some w := by
  unfold gcWithTip
  rw [h]

theorem gcWithTip_some {σ : Type} (w : Multiverse σ) (tip thr : ChainLength)
    (h : nthAncestor tip SUFFIX_TO_KEEP = some thr) :
    gcWithTip w tip = gcRun w tip thr := by
  unfold gcWithTip
  rw [h]

/-- Modelled from the spec: the error type `chain_storage::error::Error`
of the block store (the chain-storage crate lives outside src/), with the
kinds named by the error taxonomy: plain store failures (I/O or
not-found), the unreconstructible-genesis kind and rejected block
application. -/
inductive StorageError where
  | storeFailure (code : Nat)
  | initialStateUnreconstructible
  | stateTransitionFailed (reason : Nat)
  deriving DecidableEq, Repr

/-- Modelled from the spec: the block-info record of the block store
(`get_block_info(id) -> { parent_id, chain_length, .. }`; the
chain-storage crate lives outside src/). -/
structure BlockInfo where
  parentId : HeaderId
  chainLength : ChainLength
  deriving DecidableEq, Repr

/-- Modelled from the spec: the read-only block store contract
(`BlockStore` lives outside src/): both accessors may fail with a store
error.  `β` is the opaque block type. -/
structure Store (β : Type) where
  getBlockInfo : HeaderId → Except StorageError BlockInfo
  getBlock : HeaderId → Except StorageError β

/-- Reasons for the panics that `Multiverse::get_from_storage` can hit:
the explicit `panic!("don't know how to reconstruct initial chain state")`
at the zero sentinel, and the three `.unwrap()` calls (block info fetch,
block fetch, block application). -/
inductive Panic where
  | initialState
  | unwrapGetBlockInfo (e : StorageError)
  | unwrapGetBlock (e : StorageError)
  | unwrapApplyBlock (reason : Nat)
  | corruptArc
  deriving DecidableEq, Repr

/-- Outcome of `Multiverse::get_from_storage`.  The Rust signature is
`Result<Ref<Ledger>, chain_storage::error::Error>`, so an `err` outcome
is expressible; `panic` is an unwind, carrying the multiverse as it
stands at that moment. -/
inductive GfsOut (σ : Type) where
  | ok (r : Ref) (w : Multiverse σ)
  | err (e : StorageError) (w : Multiverse σ)
  | panic (p : Panic) (w : Multiverse σ)

/-- The parent-walk loop of `get_from_storage`: starting from `cur`,
panic at the zero sentinel, stop at the first id cached in memory
(taking a pin on it), otherwise fetch the block info (panicking, via
`.unwrap()`, on a store error), push `cur` onto the accumulator and step
to the parent.  The store may contain parent cycles, so the recursion is
fuel-bounded; `none` means the fuel ran out. -/
inductive WalkOut (σ : Type) where
  | seed (r : Ref) (w : Multiverse σ) (toApply : List HeaderId)
  | zeroPanic
  | infoPanic (e : StorageError)

def gfsWalk {σ β : Type} (store : Store β) :
    Nat → Multiverse σ → HeaderId → List HeaderId → Option (WalkOut σ)
  | 0, _, _, _ => none
  | fuel + 1, w, cur, acc =>
    if cur = zeroHash then some .zeroPanic
    else
      match w.getRef cur with
      | some (r, w1) => some (.seed r w1 acc)
      | none =>
        match store.getBlockInfo cur with
        | .error e => some (.infoPanic e)
        | .ok info => gfsWalk store fuel w info.parentId (acc ++ [cur])

/-- The replay loop of `get_from_storage`: for each id, ancestor first,
fetch the block (`.unwrap()`), apply it to the current seed state
(`.unwrap()`), install the result via `add` and move the seed pin to the
new `Ref` (dropping the previous one).  `chainLen` and `applyBlock` are
the opaque ledger contract. -/
def gfsReplay {σ β : Type} (chainLen : σ → ChainLength)
    (applyBlock : σ → β → Except Nat σ) (store : Store β) :
    List HeaderId → Ref → Multiverse σ → GfsOut σ
  | [], r, w => .ok r w
  | h :: hs, r, w =>
    match store.getBlock h with
    | .error e => .panic (.unwrapGetBlock e) w
    | .ok b =>
      match alook w.heap r.arc with
      | none => .panic .corruptArc w
      | some st =>
        match applyBlock st b with
        | .error reason => .panic (.unwrapApplyBlock reason) w
        | .ok st1 =>
          let rw := w.add chainLen h st1
          gfsReplay chainLen applyBlock store hs rw.1 (rw.2.dropRef r)

/-- Model of `Multiverse::get_from_storage`: fast path through `get_ref`,
otherwise walk to the nearest cached ancestor and replay the collected
blocks in reverse (ancestor-first) order. -/
def Multiverse.getFromStorage {σ β : Type} (chainLen : σ → ChainLength)
    (applyBlock : σ → β → Except Nat σ) (store : Store β) (fuel : Nat)
    (w : Multiverse σ) (k : HeaderId) : Option (GfsOut σ) :=
  match w.getRef k with
  | some (r, w1) => some (.ok r w1)
  | none =>
    match gfsWalk store fuel w k [] with
    | none => none
    | some .zeroPanic => some (.panic .initialState w)
    | some (.infoPanic e) => some (.panic (.unwrapGetBlockInfo e) w)
    | some (.seed r w1 toApply) =>
      some (gfsReplay chainLen applyBlock store toApply.reverse r w1)

/-- Sequential application of a list of blocks to a state, propagating
the first rejection (the reference semantics the spec phrases
reconstruction correctness against). -/
def applyAll {σ β : Type} (applyBlock : σ → β → Except Nat σ) :
    σ → List β → Except Nat σ
  | st, [] => .ok st
  | st, b :: bs =>
    match applyBlock st b with
    | .error reason => .error reason
    | .ok st1 => applyAll applyBlock st1 bs

/-! ### Representation invariants -/

/-- Every bucket of the length index is duplicate-free (it models a
`HashSet`). -/
def BucketsNodup (idx : LengthIdx) : Prop := ∀ p ∈ idx, (p.2 : List HeaderId).Nodup

/-- No block id occurs in two distinct buckets (spec invariant I3). -/
def BucketsDisjoint (idx : LengthIdx) : Prop :=
  List.Pairwise (fun p q => ∀ k : HeaderId, k ∈ p.2 → k ∉ q.2) idx

/-- The index is sorted by strictly increasing chain length (the
`BTreeMap` representation invariant). -/
def IdxSorted (idx : LengthIdx) : Prop := List.Pairwise (fun p q => p.1 < q.1) idx

/-- Spec invariant I1: every id in some bucket has a state-table entry. -/
def IdxInTable {σ : Type} (w : Multiverse σ) : Prop :=
  ∀ p ∈ w.statesByChainLength, ∀ k ∈ p.2, (alook w.statesByHash k).isSome

/-! ### Association-list lemmas -/

theorem GcEntry.arcOf_downgrade (e : GcEntry) : e.downgrade.arcOf = e.arcOf := by
  cases e <;> rfl

theorem GcEntry.downgrade_eq_collectable (e : GcEntry) :
    e.downgrade = .Collectable e.arcOf := by
  cases e <;> rfl

theorem GcEntry.collect_eq (strong : Nat) (e : GcEntry) :
    e.collect strong = some (.Collectable e.arcOf, strong == 0) := by
  cases e <;> rfl

theorem alook_tset_self {α : Type} (t : List (Nat × α)) (k : Nat) (v : α) :
    alook (tset t k v) k = some v := by
  induction t with
  | nil => simp [tset, alook]
  | cons p r ih =>
    by_cases h : p.1 = k
    · simp [tset, h, alook]
    · simp [tset, h, alook, ih]

theorem alook_tset_ne {α : Type} (t : List (Nat × α)) (k k0 : Nat) (v : α)
    (h : k0 ≠ k) : alook (tset t k0 v) k = alook t k := by
  induction t with
  | nil => simp [tset, alook, h]
  | cons p r ih =>
    by_cases hp : p.1 = k0
    · simp [tset, hp, alook, h]
    · simp [tset, hp, alook, ih]

theorem alook_tdel_ne {α : Type} (t : List (Nat × α)) (k k0 : Nat)
    (h : k0 ≠ k) : alook (tdel t k0) k = alook t k := by
  induction t with
  | nil => simp [tdel]
  | cons p r ih =>
    by_cases hp : p.1 = k0
    · subst hp
      simp [tdel, alook, h]
    · simp [tdel, hp, alook, ih]

theorem tset_eq_self {α : Type} (t : List (Nat × α)) (k : Nat) (v : α)
    (h : alook t k = some v) : tset t k v = t := by
  induction t with
  | nil => simp [alook] at h
  | cons p r ih =>
    rcases p with ⟨k0, v0⟩
    by_cases hp : k0 = k
    · subst hp
      simp only [alook, eq_self_iff_true, if_true, Option.some.injEq] at h
      subst h
      simp [tset]
    · simp only [alook, hp, if_neg hp] at h
      simp [tset, hp, ih h]

theorem tset_length_of_mem {α : Type} (t : List (Nat × α)) (k : Nat) (v : α)
    (h : (alook t k).isSome) : (tset t k v).length = t.length := by
  induction t with
  | nil => simp [alook] at h
  | cons p r ih =>
    by_cases hp : p.1 = k
    · simp [tset, hp]
    · simp only [alook, hp, if_neg hp] at h
      simp [tset, hp, ih h]

theorem tdel_length_of_mem {α : Type} (t : List (Nat × α)) (k : Nat)
    (h : (alook t k).isSome) : (tdel t k).length + 1 = t.length := by
  induction t with
  | nil => simp [alook] at h
  | cons p r ih =>
    by_cases hp : p.1 = k
    · simp [tdel, hp]
    · simp only [alook, hp, if_neg hp] at h
      simp [tdel, hp, ih h]

theorem alook_isSome_tset {α : Type} (t : List (Nat × α)) (k k0 : Nat) (v : α)
    (h : (alook t k).isSome) : (alook (tset t k0 v) k).isSome := by
  by_cases hk : k0 = k
  · subst hk
    simp [alook_tset_self]
  · rwa [alook_tset_ne t k k0 v hk]

theorem keys_tset_of_mem {α : Type} (t : List (Nat × α)) (k : Nat) (v : α)
    (h : (alook t k).isSome) : (tset t k v).map Prod.fst = t.map Prod.fst := by
  induction t with
  | nil => simp [alook] at h
  | cons p r ih =>
    rcases p with ⟨k0, v0⟩
    by_cases hp : k0 = k
    · subst hp
      simp [tset]
    · simp only [alook, hp, if_neg hp] at h
      simp [tset, hp, ih h]

theorem keys_tdel_sublist {α : Type} (t : List (Nat × α)) (k : Nat) :
    ((tdel t k).map Prod.fst).Sublist (t.map Prod.fst) := by
  induction t with
  | nil => simp [tdel]
  | cons p r ih =>
    by_cases hp : p.1 = k
    · simp [tdel, hp]
    · simpa [tdel, hp] using ih.cons₂ p.1

/-! ### Totality of the garbage collector -/

theorem collectBucket_alook_of_not_mem (pins : List Nat) (ks : List HeaderId)
    (t : List (HeaderId × GcEntry)) (k : HeaderId) (hk : k ∉ ks)
    (res : List HeaderId × List (HeaderId × GcEntry))
    (hres : collectBucket pins ks t = some res) : alook res.2 k = alook t k := by
  induction ks generalizing t res with
  | nil =>
    simp only [collectBucket, Option.some.injEq] at hres
    rw [← hres]
  | cons k0 ks ih =>
    have hk0 : k0 ≠ k := fun h => hk (h ▸ List.mem_cons_self k0 ks)
    have hks : k ∉ ks := fun h => hk (List.mem_cons_of_mem k0 h)
    rcases he : alook t k0 with _ | e
    · simp [collectBucket, he] at hres
    · simp only [collectBucket, he, GcEntry.collect_eq] at hres
      set t1 := tset t k0 e.downgrade with ht1
      rcases hdead : (tableStrong t1 e.arcOf + pins.count e.arcOf == 0) with _ | _
      · rw [hdead, if_neg Bool.false_ne_true] at hres
        rcases hrec : collectBucket pins ks t1 with _ | res1
        · simp [hrec] at hres
        · simp only [hrec, Option.some.injEq] at hres
          have hv := ih t1 hks res1 hrec
          rw [← hres]
          rw [hv, ht1, alook_tset_ne t k k0 e.downgrade hk0]
      · rw [hdead, if_pos rfl] at hres
        rcases hrec : collectBucket pins ks (tdel t1 k0) with _ | res1
        · simp [hrec] at hres
        · simp only [hrec, Option.some.injEq] at hres
          have hv := ih (tdel t1 k0) hks res1 hrec
          rw [← hres]
          rw [hv, alook_tdel_ne t1 k k0 hk0, ht1,
            alook_tset_ne t k k0 e.downgrade hk0]

theorem collectBucket_isSome (pins : List Nat) (ks : List HeaderId)
    (t : List (HeaderId × GcEntry)) (hnd : ks.Nodup)
    (hin : ∀ k ∈ ks, (alook t k).isSome) : (collectBucket pins ks t).isSome := by
  induction ks generalizing t with
  | nil => simp [collectBucket]
  | cons k ks ih =>
    obtain ⟨e, he⟩ := Option.isSome_iff_exists.mp (hin k (List.mem_cons_self k ks))
    have hknot : k ∉ ks := (List.nodup_cons.mp hnd).1
    have hnd2 : ks.Nodup := (List.nodup_cons.mp hnd).2
    have hin2 : ∀ k1 ∈ ks, (alook (tset t k e.downgrade) k1).isSome := by
      intro k1 hk1
      have hne : k ≠ k1 := fun h => hknot (h ▸ hk1)
      rw [alook_tset_ne t k1 k e.downgrade hne]
      exact hin k1 (List.mem_cons_of_mem k hk1)
    simp only [collectBucket, he, GcEntry.collect_eq]
    set t1 := tset t k e.downgrade with ht1
    rcases hdead : (tableStrong t1 e.arcOf + pins.count e.arcOf == 0) with _ | _
    · rw [if_neg Bool.false_ne_true]
      obtain ⟨res, hres⟩ := Option.isSome_iff_exists.mp (ih t1 hnd2 hin2)
      simp [hres]
    · rw [if_pos rfl]
      have hin3 : ∀ k1 ∈ ks, (alook (tdel t1 k) k1).isSome := by
        intro k1 hk1
        have hne : k ≠ k1 := fun h => hknot (h ▸ hk1)
        rw [alook_tdel_ne t1 k1 k hne]
        exact hin2 k1 hk1
      obtain ⟨res, hres⟩ := Option.isSome_iff_exists.mp (ih (tdel t1 k) hnd2 hin3)
      simp [hres]

theorem gcBelow_alook_of_not_mem (pins : List Nat) (tip : ChainLength)
    (bs : LengthIdx) (toKeep : ChainLength) (t : List (HeaderId × GcEntry))
    (k : HeaderId) (hk : ∀ p ∈ bs, k ∉ p.2)
    (res : LengthIdx × List (HeaderId × GcEntry))
    (hres : gcBelow pins tip toKeep bs t = some res) : alook res.2 k = alook t k := by
  induction bs generalizing toKeep t res with
  | nil =>
    simp only [gcBelow, Option.some.injEq] at hres
    rw [← hres]
  | cons b rest ih =>
    rcases b with ⟨l, hs⟩
    have hkhd : k ∉ hs := hk (l, hs) (List.mem_cons_self _ _)
    have hkrest : ∀ p ∈ rest, k ∉ p.2 := fun p hp => hk p (List.mem_cons_of_mem _ hp)
    by_cases hkeep : toKeep ≤ l
    · simp only [gcBelow, if_pos hkeep] at hres
      rcases hrec : gcBelow pins tip (l + (tip - l) / 2) rest t with _ | res1
      · simp [hrec] at hres
      · simp only [hrec, Option.some.injEq] at hres
        have hv := ih (l + (tip - l) / 2) t hkrest res1 hrec
        rw [← hres]
        exact hv
    · simp only [gcBelow, if_neg hkeep] at hres
      rcases hcb : collectBucket pins hs t with _ | res0
      · simp [hcb] at hres
      · simp only [hcb] at hres
        rcases hrec : gcBelow pins tip toKeep rest res0.2 with _ | res1
        · simp [hrec] at hres
        · simp only [hrec, Option.some.injEq] at hres
          have h1 := collectBucket_alook_of_not_mem pins hs t k hkhd res0 hcb
          have h2 := ih toKeep res0.2 hkrest res1 hrec
          rw [← hres]
          simp only []
          rw [h2, h1]

theorem gcBelow_isSome (pins : List Nat) (tip : ChainLength) (bs : LengthIdx)
    (toKeep : ChainLength) (t : List (HeaderId × GcEntry))
    (hnd : ∀ p ∈ bs, (p.2 : List HeaderId).Nodup)
    (hdisj : List.Pairwise (fun p q => ∀ k : HeaderId, k ∈ p.2 → k ∉ q.2) bs)
    (hin : ∀ p ∈ bs, ∀ k ∈ p.2, (alook t k).isSome) :
    (gcBelow pins tip toKeep bs t).isSome := by
  induction bs generalizing toKeep t with
  | nil => simp [gcBelow]
  | cons b rest ih =>
    rcases b with ⟨l, hs⟩
    have hndrest : ∀ p ∈ rest, (p.2 : List HeaderId).Nodup :=
      fun p hp => hnd p (List.mem_cons_of_mem _ hp)
    have hdisjrest := (List.pairwise_cons.mp hdisj).2
    have hheadrest := (List.pairwise_cons.mp hdisj).1
    by_cases hkeep : toKeep ≤ l
    · simp only [gcBelow, if_pos hkeep]
      have hrec := ih (l + (tip - l) / 2) t hndrest hdisjrest
        (fun p hp k hk => hin p (List.mem_cons_of_mem _ hp) k hk)
      obtain ⟨res, hres⟩ := Option.isSome_iff_exists.mp hrec
      simp [hres]
    · simp only [gcBelow, if_neg hkeep]
      have hcb := collectBucket_isSome pins hs t (hnd (l, hs) (List.mem_cons_self _ _))
        (fun k hk => hin (l, hs) (List.mem_cons_self _ _) k hk)
      obtain ⟨res0, hres0⟩ := Option.isSome_iff_exists.mp hcb
      have hin2 : ∀ p ∈ rest, ∀ k ∈ p.2, (alook res0.2 k).isSome := by
        intro p hp k hk
        rw [collectBucket_alook_of_not_mem pins hs t k (hheadrest p hp k · hk) res0 hres0]
        exact hin p (List.mem_cons_of_mem _ hp) k hk
      have hrec := ih toKeep res0.2 hndrest hdisjrest hin2
      obtain ⟨res1, hres1⟩ := Option.isSome_iff_exists.mp hrec
      simp [hres0, hres1]

theorem gc_isSome {σ : Type} (w : Multiverse σ)
    (hnd : BucketsNodup w.statesByChainLength)
    (hdisj : BucketsDisjoint w.statesByChainLength)
    (hin : IdxInTable w) : (Multiverse.gc w).isSome := by
  rcases hlast : w.statesByChainLength.getLast? with _ | ⟨tip, bs0⟩
  · rw [gc_eq_none_case w hlast]
    rfl
  · rw [gc_eq_tip_case w tip bs0 hlast]
    rcases hanc : nthAncestor tip SUFFIX_TO_KEEP with _ | thr
    · rw [gcWithTip_none w tip hanc]
      rfl
    · rw [gcWithTip_some w tip thr hanc]
      unfold gcRun
      have hsub : (w.statesByChainLength.takeWhile
          (fun b => decide (b.1 < thr))).Sublist w.statesByChainLength :=
        List.takeWhile_sublist _
      have h1 : ∀ p ∈ w.statesByChainLength.takeWhile (fun b => decide (b.1 < thr)),
          (p.2 : List HeaderId).Nodup := fun p hp => hnd p (hsub.subset hp)
      have h2 := hdisj.sublist hsub
      have h3 : ∀ p ∈ w.statesByChainLength.takeWhile (fun b => decide (b.1 < thr)),
          ∀ k ∈ p.2, (alook w.statesByHash k).isSome :=
        fun p hp k hk => hin p (hsub.subset hp) k hk
      obtain ⟨res, hres⟩ := Option.isSome_iff_exists.mp
        (gcBelow_isSome w.pins tip _ 0 w.statesByHash h1 h2 h3)
      rw [hres]
      rfl

/-! ### Claim C10: internal assertions of the garbage collector -/

/-- Concrete multiverse satisfying invariant I1 (every indexed id has a
table entry) in which the id `2` sits in two gap buckets.  During `gc`
the first visit removes its unpinned entry, so the second visit hits the
`Vacant => panic!("dangling state index entry")` arm. -/
def w10 : Multiverse Nat :=
  { statesByHash := [(1, .Retained 0), (2, .Retained 1), (3, .Retained 2)]
    statesByChainLength := [(0, [1]), (1, [2]), (2, [2]), (100, [3])]
    heap := [(0, 10), (1, 11), (2, 12)]
    pins := []
    nextArc := 3 }

/-- C10, counterexample: invariant I1 alone does not make the
`dangling state index entry` panic unreachable — `w10` satisfies I1 and
`gc` panics on it (modelled as `none`). -/
theorem c10_counterexample : IdxInTable w10 ∧ Multiverse.gc w10 = none :=
  ⟨by unfold IdxInTable; decide, rfl⟩

/-- C10 (amended): in `GcEntry::collect` the entry is always
`Collectable` after the conditional downgrade, so the `Retained` arm
containing `unreachable_unchecked` is never reached (`collect` never
returns `none`); and the `Vacant` panic arm of `gc` is unreachable under
invariant I1 strengthened by the bucket-set invariants: each bucket is
duplicate-free and no id occurs in two distinct buckets (I3). -/
theorem c10_gc_internal_assertions :
    (∀ (strong : Nat) (e : GcEntry),
        e.collect strong = some (.Collectable e.arcOf, strong == 0)) ∧
    (∀ (σ : Type) (w : Multiverse σ), BucketsNodup w.statesByChainLength →
        BucketsDisjoint w.statesByChainLength → IdxInTable w →
        (Multiverse.gc w).isSome) :=
  ⟨fun strong e => GcEntry.collect_eq strong e,
   fun _ w hnd hdisj hin => gc_isSome w hnd hdisj hin⟩

/-- Concrete well-formed multiverse used to exercise
`c10_gc_internal_assertions`. -/
def w10b : Multiverse Nat :=
  { statesByHash := [(1, .Retained 0), (2, .Retained 1)]
    statesByChainLength := [(0, [1]), (60, [2])]
    heap := [(0, 10), (1, 11)]
    pins := []
    nextArc := 2 }

/-- Witness for `c10_gc_internal_assertions` at concrete inputs. -/
theorem c10_gc_internal_assertions_witness :
    (GcEntry.collect 0 (.Retained 7) = some (.Collectable 7, true)) ∧
    (Multiverse.gc w10b).isSome :=
  ⟨c10_gc_internal_assertions.1 0 (.Retained 7),
   c10_gc_internal_assertions.2 Nat w10b (by unfold BucketsNodup; decide)
     (by unfold BucketsDisjoint; decide) (by unfold IdxInTable; decide)⟩

/-! ### Claim C9: re-insertion of an existing id -/

@[simp]
theorem idxLook_nil (l : ChainLength) : idxLook [] l = none := rfl

theorem idxLook_cons (l1 : ChainLength) (s1 : List HeaderId) (r : LengthIdx)
    (l : ChainLength) :
    idxLook ((l1, s1) :: r) l = if l1 = l then some s1 else idxLook r l := rfl

theorem idxInsert_cons (l1 : ChainLength) (s1 : List HeaderId) (r : LengthIdx)
    (l : ChainLength) (k : HeaderId) :
    idxInsert ((l1, s1) :: r) l k =
      if l < l1 then (l, [k]) :: (l1, s1) :: r
      else if l = l1 then (l1, if k ∈ s1 then s1 else s1 ++ [k]) :: r
      else (l1, s1) :: idxInsert r l k := rfl

theorem idxLook_idxInsert_self (idx : LengthIdx) (l : ChainLength) (k : HeaderId) :
    ∃ s, idxLook (idxInsert idx l k) l = some s ∧ k ∈ s := by
  induction idx with
  | nil => exact ⟨[k], by simp [idxInsert, idxLook], by simp⟩
  | cons p r ih =>
    rcases p with ⟨l0, s0⟩
    by_cases h1 : l < l0
    · exact ⟨[k], by simp [idxInsert, h1, idxLook], by simp⟩
    · by_cases h2 : l = l0
      · refine ⟨if k ∈ s0 then s0 else s0 ++ [k], ?_, ?_⟩
        · simp [idxInsert, h1, h2, idxLook]
        · by_cases h3 : k ∈ s0 <;> simp [h3]
      · obtain ⟨s, hs, hk⟩ := ih
        have hne : l0 ≠ l := fun h => h2 h.symm
        exact ⟨s, by simp [idxInsert, h1, h2, idxLook, hne, hs], hk⟩

theorem idxLook_mem (idx : LengthIdx) (l : ChainLength) (s : List HeaderId)
    (h : idxLook idx l = some s) : (l, s) ∈ idx := by
  induction idx with
  | nil => simp at h
  | cons p r ih =>
    rcases p with ⟨l1, s1⟩
    rw [idxLook_cons] at h
    by_cases h1 : l1 = l
    · rw [if_pos h1] at h
      cases h
      subst h1
      exact List.mem_cons_self _ _
    · rw [if_neg h1] at h
      exact List.mem_cons_of_mem _ (ih h)

theorem idxLook_idxInsert_preserve (idx : LengthIdx) (l : ChainLength) (k : HeaderId)
    (l0 : ChainLength) (s0 : List HeaderId) (hsorted : IdxSorted idx)
    (h : idxLook idx l0 = some s0) :
    ∃ s1, idxLook (idxInsert idx l k) l0 = some s1 ∧ ∀ k0 ∈ s0, k0 ∈ s1 := by
  induction idx with
  | nil => simp at h
  | cons p r ih =>
    rcases p with ⟨l1, s1⟩
    rw [idxLook_cons] at h
    have hsr : IdxSorted r := (List.pairwise_cons.mp hsorted).2
    have hlt : ∀ q ∈ r, l1 < q.1 := fun q hq =>
      (List.pairwise_cons.mp hsorted).1 q hq
    by_cases h1 : l < l1
    · rw [idxInsert_cons, if_pos h1]
      by_cases h2 : l = l0
      · subst h2
        have hne : l1 ≠ l := Nat.ne_of_gt h1
        rw [if_neg hne] at h
        have hmem := idxLook_mem r l s0 h
        exact absurd (hlt (l, s0) hmem) (Nat.lt_asymm h1)
      · refine ⟨s0, ?_, fun k0 hk0 => hk0⟩
        rw [idxLook_cons, if_neg h2, idxLook_cons]
        by_cases h3 : l1 = l0
        · rw [if_pos h3] at h
          rw [if_pos h3]
          exact h
        · rw [if_neg h3] at h
          rw [if_neg h3]
          exact h
    · rw [idxInsert_cons, if_neg h1]
      by_cases h2 : l = l1
      · rw [if_pos h2]
        by_cases h3 : l1 = l0
        · rw [if_pos h3] at h
          refine ⟨if k ∈ s1 then s1 else s1 ++ [k], ?_, ?_⟩
          · rw [idxLook_cons, if_pos h3]
          · intro k0 hk0
            have : k0 ∈ s1 := by
              cases h
              exact hk0
            by_cases h4 : k ∈ s1 <;> simp [h4, this]
        · rw [if_neg h3] at h
          refine ⟨s0, ?_, fun k0 hk0 => hk0⟩
          rw [idxLook_cons, if_neg h3]
          exact h
      · rw [if_neg h2]
        by_cases h3 : l1 = l0
        · rw [if_pos h3] at h
          refine ⟨s0, ?_, fun k0 hk0 => hk0⟩
          rw [idxLook_cons, if_pos h3]
          exact h
        · rw [if_neg h3] at h
          obtain ⟨s2, hs2, hsub⟩ := ih hsr h
          refine ⟨s2, ?_, hsub⟩
          rw [idxLook_cons, if_neg h3]
          exact hs2

/-- C9: `add` (via `insert`) with a block id that is already present does
not fail: it replaces the table entry by a fresh `Retained` entry,
inserts the id into the bucket of the new chain length while leaving it
in its previous bucket, so with a different new length the id afterwards
appears under two chain lengths (invariant I3 is broken), and a
previously issued pin still reaches the old state through the heap. -/
theorem c9_reinsert {σ : Type} (chainLen : σ → ChainLength) (w : Multiverse σ)
    (k : HeaderId) (st2 : σ) (e : GcEntry) (l0 : ChainLength) (s0 : List HeaderId)
    (_hent : alook w.statesByHash k = some e)
    (harc : e.arcOf ≠ w.nextArc) (hsorted : IdxSorted w.statesByChainLength)
    (hbuck : idxLook w.statesByChainLength l0 = some s0) (hk0 : k ∈ s0) :
    alook (w.add chainLen k st2).2.statesByHash k = some (.Retained w.nextArc) ∧
    (∃ s, idxLook (w.add chainLen k st2).2.statesByChainLength (chainLen st2) = some s ∧
        k ∈ s) ∧
    (∃ s, idxLook (w.add chainLen k st2).2.statesByChainLength l0 = some s ∧ k ∈ s) ∧
    alook (w.add chainLen k st2).2.heap e.arcOf = alook w.heap e.arcOf := by
  refine ⟨?_, ?_, ?_, ?_⟩
  · exact alook_tset_self w.statesByHash k (.Retained w.nextArc)
  · exact idxLook_idxInsert_self w.statesByChainLength (chainLen st2) k
  · obtain ⟨s1, hs1, hsub⟩ :=
      idxLook_idxInsert_preserve w.statesByChainLength (chainLen st2) k l0 s0
        hsorted hbuck
    exact ⟨s1, hs1, hsub k hk0⟩
  · show alook ((w.nextArc, st2) :: w.heap) e.arcOf = alook w.heap e.arcOf
    have hne : w.nextArc ≠ e.arcOf := fun hh => harc hh.symm
    simp [alook, hne]

/-- Concrete multiverse used to exercise `c9_reinsert`: id `5` is present
at chain length 3 with allocation 0 and is re-added with a state of chain
length 7. -/
def w9 : Multiverse Nat :=
  { statesByHash := [(5, .Retained 0)]
    statesByChainLength := [(3, [5])]
    heap := [(0, 3)]
    pins := [0]
    nextArc := 1 }

/-- Witness for `c9_reinsert` at concrete inputs: after re-adding id `5`
with a length-7 state, the table holds a fresh `Retained` entry, id `5`
sits in both the bucket of length 7 and the bucket of length 3, and the
old allocation still resolves to the old state. -/
theorem c9_reinsert_witness :
    alook (w9.add id 5 7).2.statesByHash 5 = some (.Retained 1) ∧
    (∃ s, idxLook (w9.add id 5 7).2.statesByChainLength 7 = some s ∧ 5 ∈ s) ∧
    (∃ s, idxLook (w9.add id 5 7).2.statesByChainLength 3 = some s ∧ 5 ∈ s) ∧
    alook (w9.add id 5 7).2.heap 0 = alook w9.heap 0 :=
  c9_reinsert id w9 5 7 (.Retained 0) 3 [5] rfl (by decide)
    (by unfold IdxSorted; decide) rfl (by decide)

/-! ### Claim C1: pin safety -/

theorem gc_preserves_rest {σ : Type} (w w' : Multiverse σ) (h : w.gc = some w') :
    w'.heap = w.heap ∧ w'.pins = w.pins ∧ w'.nextArc = w.nextArc := by
  rcases hlast : w.statesByChainLength.getLast? with _ | ⟨tip, bs0⟩
  · rw [gc_eq_none_case w hlast] at h
    cases h
    exact ⟨rfl, rfl, rfl⟩
  · rw [gc_eq_tip_case w tip bs0 hlast] at h
    rcases hanc : nthAncestor tip SUFFIX_TO_KEEP with _ | thr
    · rw [gcWithTip_none w tip hanc] at h
      cases h
      exact ⟨rfl, rfl, rfl⟩
    · rw [gcWithTip_some w tip thr hanc] at h
      unfold gcRun at h
      rcases hgb : gcBelow w.pins tip 0
          (w.statesByChainLength.takeWhile (fun b => decide (b.1 < thr)))
          w.statesByHash with _ | bt <;> rw [hgb] at h
      · cases h
      · simp only [Option.map_some', Option.some.injEq] at h
        rw [← h]
        exact ⟨rfl, rfl, rfl⟩

theorem collectBucket_pinned (pins : List Nat) (ks : List HeaderId)
    (t : List (HeaderId × GcEntry)) (k : HeaderId) (e : GcEntry)
    (res : List HeaderId × List (HeaderId × GcEntry))
    (hent : alook t k = some e) (hpin : 0 < pins.count e.arcOf)
    (hres : collectBucket pins ks t = some res) :
    ∃ e', alook res.2 k = some e' ∧ e'.arcOf = e.arcOf := by
  induction ks generalizing t e res with
  | nil =>
    simp only [collectBucket, Option.some.injEq] at hres
    rw [← hres]
    exact ⟨e, hent, rfl⟩
  | cons k0 ks ih =>
    by_cases hk : k0 = k
    · subst hk
      simp only [collectBucket, hent, GcEntry.collect_eq] at hres
      have hstrong : (tableStrong (tset t k0 e.downgrade) e.arcOf +
          pins.count e.arcOf == 0) = false := by
        rw [beq_eq_false_iff_ne, ne_eq]
        omega
      rw [hstrong, if_neg Bool.false_ne_true] at hres
      rcases hrec : collectBucket pins ks (tset t k0 e.downgrade) with _ | res1
      · rw [hrec] at hres
        cases hres
      · rw [hrec] at hres
        cases hres
        have hent2 : alook (tset t k0 e.downgrade) k0 = some e.downgrade :=
          alook_tset_self t k0 e.downgrade
        obtain ⟨e', he', harc⟩ := ih (tset t k0 e.downgrade) e.downgrade res1 hent2
          (by rw [GcEntry.arcOf_downgrade]; exact hpin) hrec
        exact ⟨e', he', by rw [harc, GcEntry.arcOf_downgrade]⟩
    · rcases he0 : alook t k0 with _ | e0
      · simp [collectBucket, he0] at hres
      · simp only [collectBucket, he0, GcEntry.collect_eq] at hres
        rcases hdead : (tableStrong (tset t k0 e0.downgrade) e0.arcOf +
            pins.count e0.arcOf == 0) with _ | _ <;> rw [hdead] at hres
        · rw [if_neg Bool.false_ne_true] at hres
          rcases hrec : collectBucket pins ks (tset t k0 e0.downgrade) with _ | res1 <;>
            rw [hrec] at hres
          · cases hres
          · cases hres
            exact ih (tset t k0 e0.downgrade) e res1
              (by rw [alook_tset_ne t k k0 e0.downgrade hk]; exact hent) hpin hrec
        · rw [if_pos rfl] at hres
          rcases hrec : collectBucket pins ks (tdel (tset t k0 e0.downgrade) k0) with
            _ | res1 <;> rw [hrec] at hres
          · cases hres
          · cases hres
            refine ih (tdel (tset t k0 e0.downgrade) k0) e res1 ?_ hpin hrec
            rw [alook_tdel_ne _ k k0 hk, alook_tset_ne t k k0 e0.downgrade hk]
            exact hent

theorem gcBelow_pinned (pins : List Nat) (tip : ChainLength) (bs : LengthIdx)
    (toKeep : ChainLength) (t : List (HeaderId × GcEntry)) (k : HeaderId)
    (e : GcEntry) (res : LengthIdx × List (HeaderId × GcEntry))
    (hent : alook t k = some e) (hpin : 0 < pins.count e.arcOf)
    (hres : gcBelow pins tip toKeep bs t = some res) :
    ∃ e', alook res.2 k = some e' ∧ e'.arcOf = e.arcOf := by
  induction bs generalizing toKeep t e res with
  | nil =>
    simp only [gcBelow, Option.some.injEq] at hres
    rw [← hres]
    exact ⟨e, hent, rfl⟩
  | cons b rest ih =>
    rcases b with ⟨l, hs⟩
    by_cases hkeep : toKeep ≤ l <;>
      rw [gcBelow] at hres
    · rw [if_pos hkeep] at hres
      rcases hrec : gcBelow pins tip (l + (tip - l) / 2) rest t with _ | res1 <;>
        rw [hrec] at hres
      · cases hres
      · cases hres
        exact ih (l + (tip - l) / 2) t e res1 hent hpin hrec
    · rw [if_neg hkeep] at hres
      rcases hcb : collectBucket pins hs t with _ | ⟨hs1, t1⟩
      · rw [hcb] at hres
        cases hres
      · simp only [hcb] at hres
        obtain ⟨e1, he1, harc1⟩ :=
          collectBucket_pinned pins hs t k e (hs1, t1) hent hpin hcb
        rcases hrec : gcBelow pins tip toKeep rest t1 with _ | res1 <;>
          rw [hrec] at hres
        · cases hres
        · cases hres
          obtain ⟨e2, he2, harc2⟩ := ih toKeep t1 e1 res1 he1
            (by rw [harc1]; exact hpin) hrec
          exact ⟨e2, he2, by rw [harc2, harc1]⟩

/-- The garbage collector never removes a state-table entry whose
allocation is gripped by at least one live pin; the surviving entry keeps
the same allocation (state identity). -/
theorem gc_pinned {σ : Type} (w w' : Multiverse σ) (k : HeaderId) (e : GcEntry)
    (hgc : w.gc = some w') (hent : alook w.statesByHash k = some e)
    (hpin : 0 < w.pins.count e.arcOf) :
    ∃ e', alook w'.statesByHash k = some e' ∧ e'.arcOf = e.arcOf := by
  rcases hlast : w.statesByChainLength.getLast? with _ | ⟨tip, bs0⟩
  · rw [gc_eq_none_case w hlast] at hgc
    cases hgc
    exact ⟨e, hent, rfl⟩
  · rw [gc_eq_tip_case w tip bs0 hlast] at hgc
    rcases hanc : nthAncestor tip SUFFIX_TO_KEEP with _ | thr
    · rw [gcWithTip_none w tip hanc] at hgc
      cases hgc
      exact ⟨e, hent, rfl⟩
    · rw [gcWithTip_some w tip thr hanc] at hgc
      unfold gcRun at hgc
      rcases hgb : gcBelow w.pins tip 0
          (w.statesByChainLength.takeWhile (fun b => decide (b.1 < thr)))
          w.statesByHash with _ | bt <;> rw [hgb] at hgc
      · cases hgc
      · simp only [Option.map_some', Option.some.injEq] at hgc
        rw [← hgc]
        exact gcBelow_pinned w.pins tip _ 0 w.statesByHash k e bt hent hpin hgb

/-- A state-table entry whose allocation has a live pin is observable
through `get`, and `get` returns exactly that allocation. -/
theorem get_of_pinned_entry {σ : Type} (w : Multiverse σ) (k : HeaderId) (e : GcEntry)
    (hent : alook w.statesByHash k = some e) (hpin : 0 < w.pins.count e.arcOf) :
    w.get k = some e.arcOf := by
  cases e with
  | Retained a =>
    simp [Multiverse.get, hent, GcEntry.arcOf]
  | Collectable a =>
    have hsc : strongCount w a ≠ 0 := by
      unfold strongCount
      simp only [GcEntry.arcOf] at hpin
      omega
    simp [Multiverse.get, hent, GcEntry.arcOf, hsc]

/-- Evolutions of the world considered by pin safety: any number of
(successful) `gc` calls and `Ref` drops, subject to the pinned allocation
`a` keeping at least one live pin. -/
inductive PinEvol {σ : Type} (a : Nat) (w : Multiverse σ) : Multiverse σ → Prop
  | refl : PinEvol a w w
  | gcStep (w1 w2 : Multiverse σ) : PinEvol a w w1 → w1.gc = some w2 →
      PinEvol a w w2
  | dropStep (w1 : Multiverse σ) (r : Ref) : PinEvol a w w1 →
      0 < (w1.dropRef r).pins.count a → PinEvol a w (w1.dropRef r)

theorem pinEvol_count {σ : Type} (a : Nat) (w w2 : Multiverse σ)
    (h : PinEvol a w w2) (h0 : 0 < w.pins.count a) : 0 < w2.pins.count a := by
  induction h with
  | refl => exact h0
  | gcStep wb wc hev hgc ih =>
    rw [(gc_preserves_rest wb wc hgc).2.1]
    exact ih
  | dropStep wb r hev hcnt ih => exact hcnt

theorem pinEvol_heap {σ : Type} (a : Nat) (w w2 : Multiverse σ)
    (h : PinEvol a w w2) : w2.heap = w.heap := by
  induction h with
  | refl => rfl
  | gcStep wb wc hev hgc ih => rw [(gc_preserves_rest wb wc hgc).1, ih]
  | dropStep wb r hev hcnt ih => exact ih

theorem pinEvol_entry {σ : Type} (a : Nat) (w w2 : Multiverse σ) (k : HeaderId)
    (e : GcEntry) (h : PinEvol a w w2) (h0 : 0 < w.pins.count a)
    (hent : alook w.statesByHash k = some e) (harc : e.arcOf = a) :
    ∃ e', alook w2.statesByHash k = some e' ∧ e'.arcOf = a := by
  induction h with
  | refl => exact ⟨e, hent, harc⟩
  | gcStep wb wc hev hgc ih =>
    obtain ⟨e1, he1, ha1⟩ := ih
    have hcnt : 0 < wb.pins.count e1.arcOf := by
      rw [ha1]
      exact pinEvol_count a w wb hev h0
    obtain ⟨e2, he2, ha2⟩ := gc_pinned wb wc k e1 hgc he1 hcnt
    exact ⟨e2, he2, by rw [ha2, ha1]⟩
  | dropStep wb r hev hcnt ih => exact ih

/-- C1: pin safety.  For the pin handle returned by `add(id, st)`, as
long as its allocation keeps at least one live pin, `get(id)` returns a
grip on a state identity-equal to `st` (same allocation, whose heap
payload is still `st`), no matter how many `gc` calls and other pin
drops happened in between; and in general `gc` never removes a
state-table entry whose state still has a live pin. -/
theorem c1_pin_safety {σ : Type} (chainLen : σ → ChainLength) (w : Multiverse σ)
    (k : HeaderId) (st : σ) (w2 : Multiverse σ)
    (hev : PinEvol (w.add chainLen k st).1.arc (w.add chainLen k st).2 w2) :
    w2.get k = some (w.add chainLen k st).1.arc ∧
    alook w2.heap (w.add chainLen k st).1.arc = some st ∧
    (∀ (wa wb : Multiverse σ) (k1 : HeaderId) (e : GcEntry), wa.gc = some wb →
      alook wa.statesByHash k1 = some e → 0 < wa.pins.count e.arcOf →
      ∃ e', alook wb.statesByHash k1 = some e' ∧ e'.arcOf = e.arcOf) := by
  have harc : (w.add chainLen k st).1.arc = w.nextArc := rfl
  have hpins : (w.add chainLen k st).2.pins = w.nextArc :: w.pins := rfl
  have hcnt : 0 < (w.add chainLen k st).2.pins.count w.nextArc := by
    rw [hpins]
    simp [List.count_cons]
  have hent : alook (w.add chainLen k st).2.statesByHash k =
      some (.Retained w.nextArc) := alook_tset_self _ _ _
  obtain ⟨e', he', ha'⟩ := pinEvol_entry w.nextArc (w.add chainLen k st).2 w2 k
    (.Retained w.nextArc) (harc ▸ hev) hcnt hent rfl
  refine ⟨?_, ?_, ?_⟩
  · rw [harc]
    have := get_of_pinned_entry w2 k e' he' ?_
    · rw [this, ha']
    · rw [ha']
      exact pinEvol_count w.nextArc _ w2 (harc ▸ hev) hcnt
  · rw [harc, pinEvol_heap _ _ _ (harc ▸ hev)]
    show alook ((w.nextArc, st) :: w.heap) w.nextArc = some st
    simp [alook]
  · exact fun wa wb k1 e hgc hent1 hpin1 => gc_pinned wa wb k1 e hgc hent1 hpin1

/-- World obtained by adding one state to the empty multiverse; used to
exercise `c1_pin_safety`. -/
def w1c : Multiverse Nat := ((Multiverse.new Nat).add id 3 0).2

/-- Witness for `c1_pin_safety`: after `add` and one `gc` call, `get`
still returns the pinned allocation and the heap still holds the state. -/
theorem c1_pin_safety_witness :
    w1c.get 3 = some 0 ∧ alook w1c.heap 0 = some 0 :=
  ⟨(c1_pin_safety id (Multiverse.new Nat) 3 0 w1c
      (PinEvol.gcStep _ _ PinEvol.refl rfl)).1,
   (c1_pin_safety id (Multiverse.new Nat) 3 0 w1c
      (PinEvol.gcStep _ _ PinEvol.refl rfl)).2.1⟩

/-! ### Claims C2 and C3: error handling of `get_from_storage` -/

theorem getRef_none {σ : Type} (w : Multiverse σ) (k : HeaderId)
    (h : w.get k = none) : w.getRef k = none := by
  unfold Multiverse.getRef
  rw [h]

theorem gfsReplay_ne_err {σ β : Type} (chainLen : σ → ChainLength)
    (applyBlock : σ → β → Except Nat σ) (store : Store β) (hs : List HeaderId)
    (r : Ref) (w : Multiverse σ) (e : StorageError) (wx : Multiverse σ) :
    gfsReplay chainLen applyBlock store hs r w ≠ .err e wx := by
  induction hs generalizing r w with
  | nil =>
    intro h
    cases h
  | cons h0 hs ih =>
    intro h
    simp only [gfsReplay] at h
    rcases hb : store.getBlock h0 with _ | b <;> simp only [hb] at h
    · cases h
    · rcases hh : alook w.heap r.arc with _ | st <;> simp only [hh] at h
      · cases h
      · rcases ha : applyBlock st b with _ | st1 <;> simp only [ha] at h
        · cases h
        · exact ih _ _ h

/-- C2, counterexample store: every block-store access fails. -/
def store2 : Store Nat :=
  { getBlockInfo := fun _ => .error (.storeFailure 7)
    getBlock := fun _ => .error (.storeFailure 7) }

/-- C2, counterexample: a failing `get_block_info` during reconstruction
is not returned to the caller unchanged — `get_from_storage` panics (the
source calls `.unwrap()` on the store result), so the claimed error
propagation does not happen. -/
theorem c2_counterexample :
    Multiverse.getFromStorage (σ := Nat) (β := Nat) id (fun s _ => Except.ok s)
        store2 5 (Multiverse.new Nat) 3 =
      some (.panic (.unwrapGetBlockInfo (.storeFailure 7)) (Multiverse.new Nat)) ∧
    (GfsOut.panic (.unwrapGetBlockInfo (.storeFailure 7)) (Multiverse.new Nat) ≠
      GfsOut.err (.storeFailure 7) (Multiverse.new Nat)) :=
  ⟨rfl, by simp⟩

/-- C2 (amended): `get_from_storage` never returns an `Err` value at all;
a failing `get_block_info` during the walk, a failing `get_block` during
replay and a rejected `apply_block` each cause a panic (the source
unwraps them), carrying the underlying reason in the panic. -/
theorem c2_error_surfacing :
    (∀ (σ β : Type) (chainLen : σ → ChainLength)
       (applyBlock : σ → β → Except Nat σ) (store : Store β) (fuel : Nat)
       (w : Multiverse σ) (k : HeaderId) (out : GfsOut σ),
       Multiverse.getFromStorage chainLen applyBlock store fuel w k = some out →
       ∀ (e : StorageError) (wx : Multiverse σ), out ≠ .err e wx) ∧
    (∀ (σ β : Type) (chainLen : σ → ChainLength)
       (applyBlock : σ → β → Except Nat σ) (store : Store β) (fuel : Nat)
       (w : Multiverse σ) (k : HeaderId) (e : StorageError),
       k ≠ zeroHash → w.get k = none → store.getBlockInfo k = .error e →
       Multiverse.getFromStorage chainLen applyBlock store (fuel + 1) w k =
         some (.panic (.unwrapGetBlockInfo e) w)) ∧
    (∀ (σ β : Type) (chainLen : σ → ChainLength)
       (applyBlock : σ → β → Except Nat σ) (store : Store β) (h : HeaderId)
       (hs : List HeaderId) (r : Ref) (w : Multiverse σ) (e : StorageError),
       store.getBlock h = .error e →
       gfsReplay chainLen applyBlock store (h :: hs) r w =
         .panic (.unwrapGetBlock e) w) ∧
    (∀ (σ β : Type) (chainLen : σ → ChainLength)
       (applyBlock : σ → β → Except Nat σ) (store : Store β) (h : HeaderId)
       (hs : List HeaderId) (r : Ref) (w : Multiverse σ) (b : β) (st : σ)
       (reason : Nat), store.getBlock h = .ok b → alook w.heap r.arc = some st →
       applyBlock st b = .error reason →
       gfsReplay chainLen applyBlock store (h :: hs) r w =
         .panic (.unwrapApplyBlock reason) w) := by
  refine ⟨?_, ?_, ?_, ?_⟩
  · intro σ β chainLen applyBlock store fuel w k out hout e wx
    unfold Multiverse.getFromStorage at hout
    rcases hfast : w.getRef k with _ | rw1 <;> rw [hfast] at hout
    · rcases hwalk : gfsWalk store fuel w k [] with _ | wo <;> rw [hwalk] at hout
      · cases hout
      · cases wo with
        | seed r w1 toApply =>
          simp only [Option.some.injEq] at hout
          rw [← hout]
          exact gfsReplay_ne_err chainLen applyBlock store toApply.reverse r w1 e wx
        | zeroPanic =>
          cases hout
          intro h
          cases h
        | infoPanic e1 =>
          cases hout
          intro h
          cases h
    · rcases rw1 with ⟨r, w1⟩
      simp only [Option.some.injEq] at hout
      rw [← hout]
      intro h
      cases h
  · intro σ β chainLen applyBlock store fuel w k e hk hget hinfo
    unfold Multiverse.getFromStorage
    rw [getRef_none w k hget, gfsWalk, if_neg hk, getRef_none w k hget, hinfo]
  · intro σ β chainLen applyBlock store h hs r w e hb
    simp only [gfsReplay, hb]
  · intro σ β chainLen applyBlock store h hs r w b st reason hb hh ha
    simp only [gfsReplay, hb, hh, ha]

/-- Witness store for `c2_error_surfacing`: block fetches fail with code
9, block infos succeed with a parent pointer to the zero sentinel. -/
def store2b : Store Nat :=
  { getBlockInfo := fun _ => .error (.storeFailure 9)
    getBlock := fun _ => .error (.storeFailure 9) }

/-- Witness for `c2_error_surfacing` at concrete inputs. -/
theorem c2_error_surfacing_witness :
    (GfsOut.panic (σ := Nat) (.unwrapGetBlockInfo (.storeFailure 9))
        (Multiverse.new Nat) ≠ .err (.storeFailure 9) (Multiverse.new Nat)) ∧
    Multiverse.getFromStorage (σ := Nat) (β := Nat) id (fun s _ => Except.ok s)
        store2b 4 (Multiverse.new Nat) 2 =
      some (.panic (.unwrapGetBlockInfo (.storeFailure 9)) (Multiverse.new Nat)) ∧
    gfsReplay (σ := Nat) (β := Nat) id (fun s _ => Except.ok s) store2b [5] ⟨5, 0⟩
        (Multiverse.new Nat) = .panic (.unwrapGetBlock (.storeFailure 9))
        (Multiverse.new Nat) :=
  ⟨c2_error_surfacing.1 Nat Nat id (fun s _ => Except.ok s) store2b 4
      (Multiverse.new Nat) 2 _ (c2_error_surfacing.2.1 Nat Nat id
        (fun s _ => Except.ok s) store2b 3 (Multiverse.new Nat) 2
        (.storeFailure 9) (by decide) rfl rfl) (.storeFailure 9) (Multiverse.new Nat),
   c2_error_surfacing.2.1 Nat Nat id (fun s _ => Except.ok s) store2b 3
     (Multiverse.new Nat) 2 (.storeFailure 9) (by decide) rfl rfl,
   c2_error_surfacing.2.2.1 Nat Nat id (fun s _ => Except.ok s) store2b 5 []
     ⟨5, 0⟩ (Multiverse.new Nat) (.storeFailure 9) rfl⟩

/-- C3, counterexample store: block infos always point to the zero
sentinel as parent. -/
def store3 : Store Nat :=
  { getBlockInfo := fun _ => .ok ⟨zeroHash, 0⟩
    getBlock := fun _ => .error (.storeFailure 1) }

/-- C3, counterexample: on an empty multiverse, a walk that reaches the
zero sentinel does not fail with the `InitialStateUnreconstructible`
error — the source panics
(`panic!("don't know how to reconstruct initial chain state")`) and the
claimed error value is never produced. -/
theorem c3_counterexample :
    Multiverse.getFromStorage (σ := Nat) (β := Nat) id (fun s _ => Except.ok s)
        store3 5 (Multiverse.new Nat) 3 =
      some (.panic .initialState (Multiverse.new Nat)) ∧
    (GfsOut.panic (σ := Nat) .initialState (Multiverse.new Nat) ≠
      GfsOut.err .initialStateUnreconstructible (Multiverse.new Nat)) :=
  ⟨rfl, by simp⟩

/-- A parent walk that reaches the zero sentinel in `n` steps without a
cache hit. -/
inductive WalksToZero {σ β : Type} (store : Store β) (w : Multiverse σ) :
    HeaderId → Nat → Prop
  | here : WalksToZero store w zeroHash 0
  | step (cur : HeaderId) (info : BlockInfo) (n : Nat) : cur ≠ zeroHash →
      w.get cur = none → store.getBlockInfo cur = .ok info →
      WalksToZero store w info.parentId n → WalksToZero store w cur (n + 1)

theorem walksToZero_walk {σ β : Type} (store : Store β) (w : Multiverse σ)
    (cur : HeaderId) (n : Nat) (h : WalksToZero store w cur n) :
    ∀ fuel, n < fuel → ∀ acc, gfsWalk store fuel w cur acc = some .zeroPanic := by
  induction h with
  | here =>
    intro fuel hf acc
    cases fuel with
    | zero => cases hf
    | succ f => rw [gfsWalk, if_pos rfl]
  | step cur info n hcur hget hinfo htail ih =>
    intro fuel hf acc
    cases fuel with
    | zero => cases hf
    | succ f =>
      rw [gfsWalk, if_neg hcur, getRef_none w cur hget, hinfo]
      exact ih f (Nat.lt_of_succ_lt_succ hf) (acc ++ [cur])

/-- C3 (amended): for a block id `k` not in the cache whose parent walk
reaches the zero sentinel without hitting a cached ancestor,
`get_from_storage(k, store)` does not return an error value: it panics
with the initial-state message, and the multiverse is left unmutated (the
world carried by the panic is the input world, with nothing added to
either index). -/
theorem c3_unreconstructible {σ β : Type} (chainLen : σ → ChainLength)
    (applyBlock : σ → β → Except Nat σ) (store : Store β) (w : Multiverse σ)
    (k : HeaderId) (n fuel : Nat) (hwz : WalksToZero store w k n)
    (hget : w.get k = none) (hfuel : n < fuel) :
    Multiverse.getFromStorage chainLen applyBlock store fuel w k =
      some (.panic .initialState w) := by
  unfold Multiverse.getFromStorage
  rw [getRef_none w k hget, walksToZero_walk store w k n hwz fuel hfuel []]

/-- Witness for `c3_unreconstructible` at concrete inputs: the chain
`4 -> 0` on an empty multiverse. -/
theorem c3_unreconstructible_witness :
    Multiverse.getFromStorage (σ := Nat) (β := Nat) id (fun s _ => Except.ok s)
        store3 7 (Multiverse.new Nat) 4 =
      some (.panic .initialState (Multiverse.new Nat)) :=
  c3_unreconstructible id (fun s _ => Except.ok s) store3 (Multiverse.new Nat) 4 1 7
    (WalksToZero.step 4 ⟨zeroHash, 0⟩ 0 (by decide) rfl rfl WalksToZero.here)
    rfl (by decide)

/-! ### Claim C4: the GC retention schedule -/

/-- Maximum chain length present in the length index (the tip, in the
words of the spec). -/
def maxLength : LengthIdx → Option ChainLength
  | [] => none
  | p :: r => some ((r.map Prod.fst).foldl Nat.max p.1)

/-- Per-bucket action of the schedule, following the words of the spec:
each `Retained` entry is demoted to `Collectable`; an entry whose weak
observation has zero strong holders is removed from both the state table
and the bucket; a dangling bucket id is a panic. -/
def scheduleBucket (pins : List Nat) :
    List HeaderId → List (HeaderId × GcEntry) →
    Option (List HeaderId × List (HeaderId × GcEntry))
  | [], t => some ([], t)
  | k :: ks, t =>
    match alook t k with
    | none => none
    | some e =>
      let t1 := tset t k e.downgrade
      if tableStrong t1 e.arcOf + pins.count e.arcOf = 0 then
        match scheduleBucket pins ks (tdel t1 k) with
        | none => none
        | some (ks', t') => some (ks', t')
      else
        match scheduleBucket pins ks t1 with
        | none => none
        | some (ks', t') => some (k :: ks', t')

/-- Visit loop of the schedule, following the words of the spec: the
buckets strictly below the threshold are visited in ascending order with
a cursor `next_keep`; a bucket at length `L ≥ next_keep` is fully
retained and the cursor becomes `L + (tip - L) / 2`; any other visited
bucket is processed by `scheduleBucket` and dropped when left empty. -/
def scheduleVisit (pins : List Nat) (tip : ChainLength) :
    ChainLength → LengthIdx → List (HeaderId × GcEntry) →
    Option (LengthIdx × List (HeaderId × GcEntry))
  | _, [], t => some ([], t)
  | nextKeep, (l, hs) :: rest, t =>
    if l ≥ nextKeep then
      match scheduleVisit pins tip (l + (tip - l) / 2) rest t with
      | none => none
      | some (rest', t') => some ((l, hs) :: rest', t')
    else
      match scheduleBucket pins hs t with
      | none => none
      | some (hs', t1) =>
        match scheduleVisit pins tip nextKeep rest t1 with
        | none => none
        | some (rest', t') =>
          some ((if hs'.isEmpty then rest' else (l, hs') :: rest'), t')

/-- The retention schedule claimed by the spec for `gc` (C4): when the
length index is non-empty and `tip.nth_ancestor(SUFFIX_TO_KEEP)` exists,
the buckets strictly below that threshold are visited in ascending order
with the cursor starting at 0, while the buckets at lengths at or above
the threshold are untouched; when the length index is empty or the
threshold does not exist, nothing changes. -/
def gcSchedule {σ : Type} (w : Multiverse σ) : Option (Multiverse σ) :=
  match maxLength w.statesByChainLength with
  | none => some w
  | some tip =>
    match nthAncestor tip SUFFIX_TO_KEEP with
    | none => some w
    | some thr =>
      (scheduleVisit w.pins tip 0
          (w.statesByChainLength.filter (fun b => decide (b.1 < thr)))
          w.statesByHash).map (fun bt =>
        { w with
          statesByHash := bt.2
          statesByChainLength :=
            bt.1 ++ w.statesByChainLength.filter (fun b => !decide (b.1 < thr)) })

theorem scheduleBucket_eq_collectBucket (pins : List Nat) (ks : List HeaderId)
    (t : List (HeaderId × GcEntry)) :
    scheduleBucket pins ks t = collectBucket pins ks t := by
  induction ks generalizing t with
  | nil => rfl
  | cons k ks ih =>
    rw [scheduleBucket, collectBucket]
    rcases he : alook t k with _ | e
    · rfl
    · simp only [GcEntry.collect_eq]
      by_cases hz : tableStrong (tset t k e.downgrade) e.arcOf + pins.count e.arcOf = 0
      · have hb : (tableStrong (tset t k e.downgrade) e.arcOf +
            pins.count e.arcOf == 0) = true := by
          rw [hz]
          rfl
        rw [if_pos hz, ih]
        simp [hb]
      · have hb : (tableStrong (tset t k e.downgrade) e.arcOf +
            pins.count e.arcOf == 0) = false := by
          rw [beq_eq_false_iff_ne, ne_eq]
          exact hz
        rw [if_neg hz, ih]
        simp [hb]

theorem scheduleVisit_eq_gcBelow (pins : List Nat) (tip : ChainLength)
    (nextKeep : ChainLength) (bs : LengthIdx) (t : List (HeaderId × GcEntry)) :
    scheduleVisit pins tip nextKeep bs t = gcBelow pins tip nextKeep bs t := by
  induction bs generalizing nextKeep t with
  | nil => rfl
  | cons b rest ih =>
    rcases b with ⟨l, hs⟩
    rw [scheduleVisit, gcBelow]
    by_cases hkeep : nextKeep ≤ l
    · rw [if_pos (show l ≥ nextKeep from hkeep), if_pos hkeep]
      simp only [ih]
    · rw [if_neg (show ¬ l ≥ nextKeep from hkeep), if_neg hkeep,
        scheduleBucket_eq_collectBucket]
      simp only [ih]

theorem takeWhile_lt_eq_filter (idx : LengthIdx) (hs : IdxSorted idx)
    (thr : ChainLength) :
    idx.takeWhile (fun b => decide (b.1 < thr)) =
      idx.filter (fun b => decide (b.1 < thr)) := by
  induction idx with
  | nil => rfl
  | cons p r ih =>
    have hsr : IdxSorted r := (List.pairwise_cons.mp hs).2
    have hlt := (List.pairwise_cons.mp hs).1
    by_cases hp : p.1 < thr
    · simp [List.takeWhile_cons, List.filter_cons, hp, ih hsr]
    · have hnil : r.filter (fun b => decide (b.1 < thr)) = [] := by
        rw [List.filter_eq_nil_iff]
        intro q hq
        simp only [decide_eq_true_eq]
        exact fun hcon => hp (Nat.lt_trans (hlt q hq) hcon)
      simp [List.takeWhile_cons, List.filter_cons, hp, hnil]

theorem dropWhile_lt_eq_filter (idx : LengthIdx) (hs : IdxSorted idx)
    (thr : ChainLength) :
    idx.dropWhile (fun b => decide (b.1 < thr)) =
      idx.filter (fun b => !decide (b.1 < thr)) := by
  induction idx with
  | nil => rfl
  | cons p r ih =>
    have hsr : IdxSorted r := (List.pairwise_cons.mp hs).2
    have hlt := (List.pairwise_cons.mp hs).1
    by_cases hp : p.1 < thr
    · simp [List.dropWhile_cons, List.filter_cons, hp, ih hsr]
    · have hall : r.filter (fun b => !decide (b.1 < thr)) = r := by
        rw [List.filter_eq_self]
        intro q hq
        simp only [Bool.not_eq_true', decide_eq_false_iff_not]
        exact fun hcon => hp (Nat.lt_trans (hlt q hq) hcon)
      simp [List.dropWhile_cons, List.filter_cons, hp, hall]

theorem maxLength_eq_getLast (idx : LengthIdx) (hs : IdxSorted idx) :
    maxLength idx = (idx.getLast?).map Prod.fst := by
  induction idx with
  | nil => rfl
  | cons p r ih =>
    cases r with
    | nil => rfl
    | cons q r2 =>
      have hsr : IdxSorted (q :: r2) := (List.pairwise_cons.mp hs).2
      have hpq : p.1 < q.1 :=
        (List.pairwise_cons.mp hs).1 q (List.mem_cons_self _ _)
      have hmax : Nat.max p.1 q.1 = q.1 := Nat.max_eq_right (Nat.le_of_lt hpq)
      rw [List.getLast?_cons_cons, ← ih hsr, maxLength, maxLength]
      simp only [List.map_cons, List.foldl_cons, hmax]

/-- C4: the garbage collector follows the claimed retention schedule.
On a sorted index, `gc` equals the schedule written after the words of
the spec: buckets strictly below `tip.nth_ancestor(SUFFIX_TO_KEEP)` are
visited in ascending order with a cursor `next_keep` starting at 0 — a
bucket at length `L ≥ next_keep` is fully retained and the cursor
becomes `L + (tip - L) / 2`, in every other visited bucket `Retained`
entries are demoted and zero-strong entries are removed from table and
bucket — while buckets at or above the threshold are untouched; and `gc`
changes nothing when the length index is empty or the threshold does not
exist. -/
theorem c4_gc_matches_schedule {σ : Type} (w : Multiverse σ)
    (hs : IdxSorted w.statesByChainLength) :
    w.gc = gcSchedule w ∧
    (w.statesByChainLength = [] → w.gc = some w) ∧
    (∀ tip, maxLength w.statesByChainLength = some tip →
      nthAncestor tip SUFFIX_TO_KEEP = none → w.gc = some w) := by
  refine ⟨?_, ?_, ?_⟩
  · unfold Multiverse.gc gcWithTip gcRun gcSchedule
    rw [maxLength_eq_getLast w.statesByChainLength hs]
    simp only [takeWhile_lt_eq_filter w.statesByChainLength hs,
      dropWhile_lt_eq_filter w.statesByChainLength hs, scheduleVisit_eq_gcBelow]
    cases hlast : w.statesByChainLength.getLast? with
    | none => rfl
    | some tb =>
      rcases tb with ⟨tip, bs0⟩
      rfl
  · intro h
    apply gc_eq_none_case
    rw [h]
    rfl
  · intro tip hmax hanc
    rw [maxLength_eq_getLast w.statesByChainLength hs] at hmax
    rcases hlast : w.statesByChainLength.getLast? with _ | ⟨tip2, bs0⟩
    · exact gc_eq_none_case w hlast
    · rw [hlast] at hmax
      simp only [Option.map_some', Option.some.injEq] at hmax
      rw [gc_eq_tip_case w tip2 bs0 hlast]
      exact gcWithTip_none w tip2 (by rw [hmax]; exact hanc)

/-- Concrete multiverse (sorted index, several buckets below and above
the threshold) used to exercise `c4_gc_matches_schedule`. -/
def w4 : Multiverse Nat :=
  { statesByHash := [(1, .Retained 0), (2, .Retained 1), (3, .Collectable 2),
      (4, .Retained 3)]
    statesByChainLength := [(0, [1]), (2, [2]), (3, [3]), (80, [4])]
    heap := [(0, 0), (1, 2), (2, 3), (3, 80)]
    pins := [2]
    nextArc := 4 }

/-- Witness for `c4_gc_matches_schedule` at a concrete input. -/
theorem c4_gc_matches_schedule_witness : Multiverse.gc w4 = gcSchedule w4 :=
  (c4_gc_matches_schedule w4 (by unfold IdxSorted; decide)).1

/-! ### Claim C5: index coherence — characterization of one GC pass -/

theorem alook_isSome_iff_mem_keys {α : Type} (t : List (Nat × α)) (k : Nat) :
    (alook t k).isSome ↔ k ∈ t.map Prod.fst := by
  induction t with
  | nil => simp [alook]
  | cons p r ih =>
    rcases p with ⟨a, b⟩
    by_cases hp : a = k
    · simp [alook, hp]
    · rw [List.map_cons, List.mem_cons]
      have h1 : alook ((a, b) :: r) k = alook r k := by
        simp only [alook, if_neg hp]
      rw [h1, ih]
      constructor
      · exact Or.inr
      · rintro (h | h)
        · exact absurd h.symm hp
        · exact h

theorem alook_tdel_self_of_nodup {α : Type} (t : List (Nat × α)) (k : Nat)
    (hnd : (t.map Prod.fst).Nodup) : alook (tdel t k) k = none := by
  induction t with
  | nil => rfl
  | cons p r ih =>
    rcases List.nodup_cons.mp hnd with ⟨hp, hr⟩
    by_cases hk : p.1 = k
    · subst hk
      rw [tdel, if_pos rfl]
      rcases ha : alook r p.1 with _ | v
      · rfl
      · exact absurd ((alook_isSome_iff_mem_keys r p.1).mp (by rw [ha]; rfl)) hp
    · rw [tdel, if_neg hk, alook, if_neg hk]
      exact ih hr

theorem keys_nodup_tset {α : Type} (t : List (Nat × α)) (k : Nat) (v : α)
    (hk : (alook t k).isSome) (hnd : (t.map Prod.fst).Nodup) :
    ((tset t k v).map Prod.fst).Nodup := by
  rw [keys_tset_of_mem t k v hk]
  exact hnd

theorem keys_nodup_tdel {α : Type} (t : List (Nat × α)) (k : Nat)
    (hnd : (t.map Prod.fst).Nodup) : ((tdel t k).map Prod.fst).Nodup :=
  hnd.sublist (keys_tdel_sublist t k)

/-- Full characterization of the `retain` pass over one gap bucket: the
kept ids form a sublist of the bucket, entries outside the bucket are
untouched, kept ids keep a table entry with the same allocation, removed
ids lose their entry, table keys only shrink, and the sizes balance. -/
theorem collectBucket_spec (pins : List Nat) (ks : List HeaderId)
    (t : List (HeaderId × GcEntry)) (ks' : List HeaderId)
    (t' : List (HeaderId × GcEntry)) (hnd : ks.Nodup)
    (htk : (t.map Prod.fst).Nodup)
    (hres : collectBucket pins ks t = some (ks', t')) :
    ks'.Sublist ks ∧
    (∀ k, k ∉ ks → alook t' k = alook t k) ∧
    (∀ k ∈ ks', (alook t' k).isSome) ∧
    (∀ k e', alook t' k = some e' → ∃ e, alook t k = some e ∧ e'.arcOf = e.arcOf) ∧
    ((t'.map Prod.fst).Sublist (t.map Prod.fst)) ∧
    (∀ k ∈ ks, k ∉ ks' → alook t' k = none) ∧
    t'.length + ks.length = t.length + ks'.length := by
  induction ks generalizing t ks' t' with
  | nil =>
    simp only [collectBucket, Option.some.injEq, Prod.mk.injEq] at hres
    obtain ⟨h1, h2⟩ := hres
    subst h1
    subst h2
    refine ⟨List.Sublist.refl _, fun k _ => rfl, ?_, ?_, List.Sublist.refl _, ?_, rfl⟩
    · intro k hk
      cases hk
    · exact fun k e' h => ⟨e', h, rfl⟩
    · intro k hk
      cases hk
  | cons k0 ks ih =>
    rcases List.nodup_cons.mp hnd with ⟨hk0, hndks⟩
    rcases he : alook t k0 with _ | e
    · simp [collectBucket, he] at hres
    · simp only [collectBucket, he, GcEntry.collect_eq] at hres
      have htk1 : ((tset t k0 e.downgrade).map Prod.fst).Nodup :=
        keys_nodup_tset t k0 e.downgrade (by rw [he]; rfl) htk
      have hkeys1 : (tset t k0 e.downgrade).map Prod.fst = t.map Prod.fst :=
        keys_tset_of_mem t k0 e.downgrade (by rw [he]; rfl)
      have hlen1 : (tset t k0 e.downgrade).length = t.length :=
        tset_length_of_mem t k0 e.downgrade (by rw [he]; rfl)
      rcases hdead : (tableStrong (tset t k0 e.downgrade) e.arcOf +
          pins.count e.arcOf == 0) with _ | _ <;> rw [hdead] at hres
      · -- alive: the id is kept with a downgraded entry
        rw [if_neg Bool.false_ne_true] at hres
        rcases hrec : collectBucket pins ks (tset t k0 e.downgrade) with _ | ⟨ks1, t1⟩ <;>
          rw [hrec] at hres
        · cases hres
        · simp only [Option.some.injEq, Prod.mk.injEq] at hres
          obtain ⟨h1, h2⟩ := hres
          subst h2
          obtain ⟨s1, s2, s3, s4, s5, s6, s7⟩ := ih (tset t k0 e.downgrade) ks1 t1
            hndks htk1 hrec
          subst h1
          refine ⟨s1.cons₂ k0, ?_, ?_, ?_, ?_, ?_, ?_⟩
          · intro k hk
            have hne : k0 ≠ k := fun h => hk (h ▸ List.mem_cons_self _ _)
            rw [s2 k (fun h => hk (List.mem_cons_of_mem _ h)),
              alook_tset_ne t k k0 e.downgrade hne]
          · intro k hk
            rcases List.mem_cons.mp hk with h | h
            · subst h
              by_cases hin : k ∈ ks1
              · exact s3 k hin
              · by_cases hks : k ∈ ks
                · rw [s6 k hks hin]
                  exact absurd hks hk0
                · rw [s2 k hks, alook_tset_self]
                  rfl
            · exact s3 k h
          · intro k e' hke
            obtain ⟨e1, he1, ha1⟩ := s4 k e' hke
            by_cases hne : k0 = k
            · subst hne
              rw [alook_tset_self] at he1
              cases he1
              exact ⟨e, he, by rw [ha1, GcEntry.arcOf_downgrade]⟩
            · rw [alook_tset_ne t k k0 e.downgrade hne] at he1
              exact ⟨e1, he1, ha1⟩
          · exact hkeys1 ▸ s5
          · intro k hk hk'
            rcases List.mem_cons.mp hk with h | h
            · subst h
              exact absurd (List.mem_cons_self _ _) hk'
            · have hne : k0 ≠ k := fun hh => hk0 (hh ▸ h)
              rw [s6 k h (fun hh => hk' (List.mem_cons_of_mem _ hh))]
          · rw [hlen1] at s7
            simp only [List.length_cons]
            omega
      · -- dead: the id is removed from table and bucket
        rw [if_pos rfl] at hres
        rcases hrec : collectBucket pins ks (tdel (tset t k0 e.downgrade) k0) with
          _ | ⟨ks1, t1⟩ <;> rw [hrec] at hres
        · cases hres
        · simp only [Option.some.injEq, Prod.mk.injEq] at hres
          obtain ⟨h1, h2⟩ := hres
          subst h2
          subst h1
          have htk2 : ((tdel (tset t k0 e.downgrade) k0).map Prod.fst).Nodup :=
            keys_nodup_tdel _ k0 htk1
          obtain ⟨s1, s2, s3, s4, s5, s6, s7⟩ := ih _ ks1 t1 hndks htk2 hrec
          have hdel_len : (tdel (tset t k0 e.downgrade) k0).length + 1 = t.length := by
            rw [tdel_length_of_mem _ k0 (by rw [alook_tset_self]; rfl), hlen1]
          have hdel_ne : ∀ k, k0 ≠ k →
              alook (tdel (tset t k0 e.downgrade) k0) k = alook t k := by
            intro k hne
            rw [alook_tdel_ne _ k k0 hne, alook_tset_ne t k k0 e.downgrade hne]
          refine ⟨s1.cons k0, ?_, s3, ?_, ?_, ?_, ?_⟩
          · intro k hk
            have hne : k0 ≠ k := fun h => hk (h ▸ List.mem_cons_self _ _)
            rw [s2 k (fun h => hk (List.mem_cons_of_mem _ h)), hdel_ne k hne]
          · intro k e' hke
            obtain ⟨e1, he1, ha1⟩ := s4 k e' hke
            by_cases hne : k0 = k
            · subst hne
              rw [alook_tdel_self_of_nodup _ k0 htk1] at he1
              cases he1
            · rw [hdel_ne k hne] at he1
              exact ⟨e1, he1, ha1⟩
          · exact List.Sublist.trans s5
              (hkeys1 ▸ keys_tdel_sublist (tset t k0 e.downgrade) k0)
          · intro k hk hk'
            rcases List.mem_cons.mp hk with h | h
            · subst h
              by_cases hin : k ∈ ks
              · exact absurd hin hk0
              · rw [s2 k hin, alook_tdel_self_of_nodup _ k htk1]
            · have hne : k0 ≠ k := fun hh => hk0 (hh ▸ h)
              exact s6 k h hk'
          · simp only [List.length_cons]
            omega

/-- Bucketwise thinning: the result index is obtained from the input by
shrinking each bucket to a (non-empty) sublist or dropping it. -/
inductive BucketThin : LengthIdx → LengthIdx → Prop
  | nil : BucketThin [] []
  | keep (l : ChainLength) (hs hs' : List HeaderId) (bs bs' : LengthIdx) :
      hs'.Sublist hs → hs' ≠ [] → BucketThin bs bs' →
      BucketThin ((l, hs) :: bs) ((l, hs') :: bs')
  | drop (l : ChainLength) (hs : List HeaderId) (bs bs' : LengthIdx) :
      BucketThin bs bs' → BucketThin ((l, hs) :: bs) bs'

theorem BucketThin.mem_rev (bs bs' : LengthIdx) (h : BucketThin bs bs')
    (p' : ChainLength × List HeaderId) (hp' : p' ∈ bs') :
    ∃ hs0, (p'.1, hs0) ∈ bs ∧ (p'.2 : List HeaderId).Sublist hs0 := by
  induction h with
  | nil => cases hp'
  | keep l hs hs1 bs0 bs1 hsub hne htl ih =>
    rcases List.mem_cons.mp hp' with h | h
    · subst h
      exact ⟨hs, List.mem_cons_self _ _, hsub⟩
    · obtain ⟨hs0, hmem, hsub0⟩ := ih h
      exact ⟨hs0, List.mem_cons_of_mem _ hmem, hsub0⟩
  | drop l hs bs0 bs1 htl ih =>
    obtain ⟨hs0, hmem, hsub0⟩ := ih hp'
    exact ⟨hs0, List.mem_cons_of_mem _ hmem, hsub0⟩

theorem BucketThin.sorted (bs bs' : LengthIdx) (h : BucketThin bs bs')
    (hs : IdxSorted bs) : IdxSorted bs' := by
  induction h with
  | nil => exact List.Pairwise.nil
  | keep l hsb hs1 bs0 bs1 hsub hne htl ih =>
    rcases List.pairwise_cons.mp hs with ⟨hhead, htail⟩
    refine List.pairwise_cons.mpr ⟨?_, ih htail⟩
    intro q' hq'
    obtain ⟨hs0, hmem, _⟩ := BucketThin.mem_rev bs0 bs1 htl q' hq'
    exact hhead (q'.1, hs0) hmem
  | drop l hsb bs0 bs1 htl ih =>
    exact ih (List.pairwise_cons.mp hs).2

theorem BucketThin.disj (bs bs' : LengthIdx) (h : BucketThin bs bs')
    (hd : List.Pairwise (fun p q => ∀ k : HeaderId, k ∈ p.2 → k ∉ q.2) bs) :
    List.Pairwise (fun p q => ∀ k : HeaderId, k ∈ p.2 → k ∉ q.2) bs' := by
  induction h with
  | nil => exact List.Pairwise.nil
  | keep l hsb hs1 bs0 bs1 hsub hne htl ih =>
    rcases List.pairwise_cons.mp hd with ⟨hhead, htail⟩
    refine List.pairwise_cons.mpr ⟨?_, ih htail⟩
    intro q' hq' k hk hcon
    obtain ⟨hs0, hmem, hsub0⟩ := BucketThin.mem_rev bs0 bs1 htl q' hq'
    exact hhead (q'.1, hs0) hmem k (hsub.subset hk) (hsub0.subset hcon)
  | drop l hsb bs0 bs1 htl ih =>
    exact ih (List.pairwise_cons.mp hd).2

/-- Full characterization of the scan over the buckets below the
threshold: result bucket keys form a sublist of the input keys, ids
outside the scanned buckets keep their entries, every id in a result
bucket has a table entry, surviving entries keep their allocation, table
keys only shrink, no result bucket is empty, every scanned id is either
alive (entry and bucket membership) or dead (no entry, in no bucket),
and the sizes balance. -/
theorem gcBelow_spec (pins : List Nat) (tip : ChainLength) (bs : LengthIdx)
    (toKeep : ChainLength) (t : List (HeaderId × GcEntry)) (bs' : LengthIdx)
    (t' : List (HeaderId × GcEntry))
    (hnd : ∀ p ∈ bs, (p.2 : List HeaderId).Nodup)
    (hdisj : List.Pairwise (fun p q => ∀ k : HeaderId, k ∈ p.2 → k ∉ q.2) bs)
    (hne : ∀ p ∈ bs, p.2 ≠ ([] : List HeaderId))
    (hin : ∀ p ∈ bs, ∀ k ∈ p.2, (alook t k).isSome)
    (htk : (t.map Prod.fst).Nodup)
    (hres : gcBelow pins tip toKeep bs t = some (bs', t')) :
    ((bs'.map Prod.fst).Sublist (bs.map Prod.fst)) ∧
    (∀ k : HeaderId, (∀ p ∈ bs, k ∉ p.2) → alook t' k = alook t k) ∧
    (∀ p' ∈ bs', p'.2 ≠ ([] : List HeaderId) ∧
      ∃ hs0, (p'.1, hs0) ∈ bs ∧ (p'.2 : List HeaderId).Sublist hs0) ∧
    (∀ p ∈ bs, ∀ k ∈ p.2,
      ((alook t' k).isSome ∧ ∃ s', (p.1, s') ∈ bs' ∧ k ∈ s') ∨
      (alook t' k = none ∧ ∀ p' ∈ bs', k ∉ p'.2)) ∧
    (∀ k e', alook t' k = some e' → ∃ e, alook t k = some e ∧ e'.arcOf = e.arcOf) ∧
    ((t'.map Prod.fst).Sublist (t.map Prod.fst)) ∧
    (t'.length + (bs.map (fun p => (p.2 : List HeaderId).length)).sum =
      t.length + (bs'.map (fun p => (p.2 : List HeaderId).length)).sum) ∧
    BucketThin bs bs' := by
  induction bs generalizing toKeep t bs' t' with
  | nil =>
    simp only [gcBelow, Option.some.injEq, Prod.mk.injEq] at hres
    obtain ⟨h1, h2⟩ := hres
    subst h1
    subst h2
    exact ⟨List.Sublist.refl _, fun k _ => rfl, fun p' hp' => absurd hp' (by simp),
      fun p hp => absurd hp (by simp), fun k e' h => ⟨e', h, rfl⟩,
      List.Sublist.refl _, rfl, BucketThin.nil⟩
  | cons b rest ih =>
    rcases b with ⟨l, hs⟩
    have hndh : hs.Nodup := hnd (l, hs) (List.mem_cons_self _ _)
    have hndr : ∀ p ∈ rest, (p.2 : List HeaderId).Nodup :=
      fun p hp => hnd p (List.mem_cons_of_mem _ hp)
    have hdisjh := (List.pairwise_cons.mp hdisj).1
    have hdisjr := (List.pairwise_cons.mp hdisj).2
    have hner : ∀ p ∈ rest, p.2 ≠ ([] : List HeaderId) :=
      fun p hp => hne p (List.mem_cons_of_mem _ hp)
    by_cases hkeep : toKeep ≤ l
    · -- retained bucket: untouched, cursor advances
      rw [gcBelow, if_pos hkeep] at hres
      rcases hrec : gcBelow pins tip (l + (tip - l) / 2) rest t with _ | ⟨rest1, t1⟩ <;>
        rw [hrec] at hres
      · cases hres
      · simp only [Option.some.injEq, Prod.mk.injEq] at hres
        obtain ⟨h1, h2⟩ := hres
        subst h1
        subst h2
        obtain ⟨g1, g2, g3, g4, g5, g6, g7, g8⟩ := ih (l + (tip - l) / 2) t rest1 t1
          hndr hdisjr hner (fun p hp k hk => hin p (List.mem_cons_of_mem _ hp) k hk)
          htk hrec
        refine ⟨g1.cons₂ l, ?_, ?_, ?_, g5, g6, ?_,
          BucketThin.keep l hs hs rest rest1 (List.Sublist.refl _)
            (hne (l, hs) (List.mem_cons_self _ _)) g8⟩
        · intro k hk
          exact g2 k (fun p hp => hk p (List.mem_cons_of_mem _ hp))
        · intro p' hp'
          rcases List.mem_cons.mp hp' with h | h
          · subst h
            exact ⟨hne (l, hs) (List.mem_cons_self _ _),
              ⟨hs, List.mem_cons_self _ _, List.Sublist.refl _⟩⟩
          · obtain ⟨hne1, hs0, hmem, hsub⟩ := g3 p' h
            exact ⟨hne1, hs0, List.mem_cons_of_mem _ hmem, hsub⟩
        · intro p hp k hk
          rcases List.mem_cons.mp hp with h | h
          · subst h
            left
            constructor
            · rw [g2 k (fun q hq => hdisjh q hq k hk)]
              exact hin (l, hs) (List.mem_cons_self _ _) k hk
            · exact ⟨hs, List.mem_cons_self _ _, hk⟩
          · rcases g4 p h k hk with ⟨ha, s', hs', hks'⟩ | ⟨hna, hnb⟩
            · exact Or.inl ⟨ha, s', List.mem_cons_of_mem _ hs', hks'⟩
            · refine Or.inr ⟨hna, ?_⟩
              intro p' hp'
              rcases List.mem_cons.mp hp' with hh | hh
              · subst hh
                exact fun hcon => hdisjh p h k hcon hk
              · exact hnb p' hh
        · simp only [List.map_cons, List.sum_cons]
          omega
    · -- gap bucket: retain pass, bucket dropped when empty
      rw [gcBelow, if_neg hkeep] at hres
      rcases hcb : collectBucket pins hs t with _ | ⟨hs1, t1⟩
      · rw [hcb] at hres
        cases hres
      · simp only [hcb] at hres
        obtain ⟨s1, s2, s3, s4, s5, s6, s7⟩ :=
          collectBucket_spec pins hs t hs1 t1 hndh htk hcb
        have htk1 : (t1.map Prod.fst).Nodup := htk.sublist s5
        have hin1 : ∀ p ∈ rest, ∀ k ∈ p.2, (alook t1 k).isSome := by
          intro p hp k hk
          rw [s2 k (fun hcon => hdisjh p hp k hcon hk)]
          exact hin p (List.mem_cons_of_mem _ hp) k hk
        rcases hrec : gcBelow pins tip toKeep rest t1 with _ | ⟨rest1, t2⟩ <;>
          rw [hrec] at hres
        · cases hres
        · simp only [Option.some.injEq, Prod.mk.injEq] at hres
          obtain ⟨h1, h2⟩ := hres
          subst h2
          subst h1
          obtain ⟨g1, g2, g3, g4, g5, g6, g7, g8⟩ := ih toKeep t1 rest1 t2
            hndr hdisjr hner hin1 htk1 hrec
          have hnotrest : ∀ k, k ∈ hs → ∀ p ∈ rest, k ∉ p.2 :=
            fun k hk p hp => hdisjh p hp k hk
          have huntouched : ∀ k, k ∈ hs → alook t2 k = alook t1 k :=
            fun k hk => g2 k (hnotrest k hk)
          refine ⟨?_, ?_, ?_, ?_, ?_, g6.trans s5, ?_, ?_⟩
          · by_cases hemp : hs1.isEmpty
            · rw [if_pos hemp]
              exact g1.trans (List.sublist_cons_self l (rest.map Prod.fst))
            · rw [if_neg hemp]
              exact (g1.cons₂ l)
          · intro k hk
            rw [g2 k (fun p hp => hk p (List.mem_cons_of_mem _ hp)),
              s2 k (hk (l, hs) (List.mem_cons_self _ _))]
          · intro p' hp'
            by_cases hemp : hs1.isEmpty
            · rw [if_pos hemp] at hp'
              obtain ⟨hne1, hs0, hmem, hsub⟩ := g3 p' hp'
              exact ⟨hne1, hs0, List.mem_cons_of_mem _ hmem, hsub⟩
            · rw [if_neg hemp] at hp'
              rcases List.mem_cons.mp hp' with h | h
              · subst h
                refine ⟨fun hcon => hemp (List.isEmpty_iff.mpr hcon), hs,
                  List.mem_cons_self _ _, s1⟩
              · obtain ⟨hne1, hs0, hmem, hsub⟩ := g3 p' h
                exact ⟨hne1, hs0, List.mem_cons_of_mem _ hmem, hsub⟩
          · intro p hp k hk
            rcases List.mem_cons.mp hp with h | h
            · subst h
              by_cases hks1 : k ∈ hs1
              · left
                refine ⟨?_, ?_⟩
                · rw [huntouched k hk]
                  exact s3 k hks1
                · refine ⟨hs1, ?_, hks1⟩
                  have hemp : ¬ hs1.isEmpty := by
                    intro hcon
                    rw [List.isEmpty_iff] at hcon
                    subst hcon
                    cases hks1
                  rw [if_neg hemp]
                  exact List.mem_cons_self _ _
              · right
                have hrest1 : ∀ p' ∈ rest1, k ∉ p'.2 := by
                  intro q hq hcon
                  obtain ⟨hne1, hs0, hmem, hsub⟩ := g3 q hq
                  exact hnotrest k hk (q.1, hs0) hmem (hsub.subset hcon)
                refine ⟨?_, ?_⟩
                · rw [huntouched k hk]
                  exact s6 k hk hks1
                · intro p' hp'
                  by_cases hemp : hs1.isEmpty
                  · rw [if_pos hemp] at hp'
                    exact hrest1 p' hp'
                  · rw [if_neg hemp] at hp'
                    rcases List.mem_cons.mp hp' with hh | hh
                    · subst hh
                      exact fun hcon => hks1 hcon
                    · exact hrest1 p' hh
            · rcases g4 p h k hk with ⟨ha, s', hs', hks'⟩ | ⟨hna, hnb⟩
              · left
                refine ⟨ha, s', ?_, hks'⟩
                by_cases hemp : hs1.isEmpty
                · rw [if_pos hemp]
                  exact hs'
                · rw [if_neg hemp]
                  exact List.mem_cons_of_mem _ hs'
              · right
                refine ⟨hna, ?_⟩
                intro p' hp'
                by_cases hemp : hs1.isEmpty
                · rw [if_pos hemp] at hp'
                  exact hnb p' hp'
                · rw [if_neg hemp] at hp'
                  rcases List.mem_cons.mp hp' with hh | hh
                  · subst hh
                    exact fun hcon => hdisjh p h k (s1.subset hcon) hk
                  · exact hnb p' hh
          · intro k e' hke
            obtain ⟨e1, he1, ha1⟩ := g5 k e' hke
            obtain ⟨e0, he0, ha0⟩ := s4 k e1 he1
            exact ⟨e0, he0, by rw [ha1, ha0]⟩
          · simp only [List.map_cons, List.sum_cons]
            by_cases hemp : hs1.isEmpty
            · rw [if_pos hemp]
              have hlen0 : hs1.length = 0 := by
                rw [List.isEmpty_iff] at hemp
                rw [hemp]
                rfl
              omega
            · rw [if_neg hemp]
              simp only [List.map_cons, List.sum_cons]
              omega
          · by_cases hemp : hs1.isEmpty
            · rw [if_pos hemp]
              exact BucketThin.drop l hs rest rest1 g8
            · rw [if_neg hemp]
              exact BucketThin.keep l hs hs1 rest rest1 s1
                (fun hcon => hemp (List.isEmpty_iff.mpr hcon)) g8

theorem idxLook_append_skip (xs ys : LengthIdx) (a : ChainLength)
    (h : ∀ p ∈ xs, p.1 ≠ a) : idxLook (xs ++ ys) a = idxLook ys a := by
  induction xs with
  | nil => rfl
  | cons p r ih =>
    rcases p with ⟨l0, s0⟩
    rw [List.cons_append, idxLook_cons,
      if_neg (h (l0, s0) (List.mem_cons_self _ _))]
    exact ih (fun q hq => h q (List.mem_cons_of_mem _ hq))

theorem idxLook_of_sorted_mem (idx : LengthIdx) (a : ChainLength)
    (s : List HeaderId) (hs : IdxSorted idx) (hmem : (a, s) ∈ idx) :
    idxLook idx a = some s := by
  induction idx with
  | nil => cases hmem
  | cons p r ih =>
    rcases p with ⟨l0, s0⟩
    rcases List.mem_cons.mp hmem with h | h
    · cases h
      rw [idxLook_cons, if_pos rfl]
    · have hlt := (List.pairwise_cons.mp hs).1 (a, s) h
      rw [idxLook_cons, if_neg (Nat.ne_of_lt hlt)]
      exact ih (List.pairwise_cons.mp hs).2 h

theorem mem_below_lt (idx : LengthIdx) (thr : ChainLength)
    (p : ChainLength × List HeaderId)
    (hp : p ∈ idx.takeWhile (fun b => decide (b.1 < thr))) : p.1 < thr := by
  have h := List.mem_takeWhile_imp hp
  simpa using h

theorem mem_above_ge (idx : LengthIdx) (hs : IdxSorted idx) (thr : ChainLength)
    (p : ChainLength × List HeaderId)
    (hp : p ∈ idx.dropWhile (fun b => decide (b.1 < thr))) : ¬ p.1 < thr := by
  rw [dropWhile_lt_eq_filter idx hs thr] at hp
  have h := (List.mem_filter.mp hp).2
  simpa using h

theorem idxInsert_mem_rev (idx : LengthIdx) (l : ChainLength) (k : HeaderId)
    (p' : ChainLength × List HeaderId) (hp' : p' ∈ idxInsert idx l k) :
    p' ∈ idx ∨ p' = (l, [k]) ∨
      ∃ s, (l, s) ∈ idx ∧ (p' = (l, s) ∨ (p' = (l, s ++ [k]) ∧ k ∉ s)) := by
  induction idx with
  | nil =>
    simp only [idxInsert, List.mem_singleton] at hp'
    exact Or.inr (Or.inl hp')
  | cons q r ih =>
    rcases q with ⟨l0, s0⟩
    rw [idxInsert_cons] at hp'
    by_cases h1 : l < l0
    · rw [if_pos h1] at hp'
      rcases List.mem_cons.mp hp' with h | h
      · exact Or.inr (Or.inl h)
      · exact Or.inl h
    · rw [if_neg h1] at hp'
      by_cases h2 : l = l0
      · rw [if_pos h2] at hp'
        subst h2
        rcases List.mem_cons.mp hp' with h | h
        · right
          right
          refine ⟨s0, List.mem_cons_self _ _, ?_⟩
          by_cases h3 : k ∈ s0
          · rw [if_pos h3] at h
            exact Or.inl h
          · rw [if_neg h3] at h
            exact Or.inr ⟨h, h3⟩
        · exact Or.inl (List.mem_cons_of_mem _ h)
      · rw [if_neg h2] at hp'
        rcases List.mem_cons.mp hp' with h | h
        · exact Or.inl (h ▸ List.mem_cons_self _ _)
        · rcases ih h with h | h | ⟨s, hmem, hor⟩
          · exact Or.inl (List.mem_cons_of_mem _ h)
          · exact Or.inr (Or.inl h)
          · exact Or.inr (Or.inr ⟨s, List.mem_cons_of_mem _ hmem, hor⟩)

theorem idxInsert_content (idx : LengthIdx) (l : ChainLength) (k : HeaderId)
    (p' : ChainLength × List HeaderId) (hp' : p' ∈ idxInsert idx l k)
    (k0 : HeaderId) (hk0 : k0 ∈ p'.2) :
    k0 = k ∨ ∃ p, p ∈ idx ∧ p.1 = p'.1 ∧ k0 ∈ p.2 := by
  rcases idxInsert_mem_rev idx l k p' hp' with h | h | ⟨s, hmem, hor⟩
  · exact Or.inr ⟨p', h, rfl, hk0⟩
  · subst h
    rcases List.mem_singleton.mp hk0 with h
    exact Or.inl h
  · rcases hor with h | ⟨h, hk⟩
    · subst h
      exact Or.inr ⟨(l, s), hmem, rfl, hk0⟩
    · subst h
      rcases List.mem_append.mp hk0 with h | h
      · exact Or.inr ⟨(l, s), hmem, rfl, h⟩
      · exact Or.inl (List.mem_singleton.mp h)

theorem idxInsert_key (idx : LengthIdx) (l : ChainLength) (k : HeaderId)
    (p' : ChainLength × List HeaderId) (hp' : p' ∈ idxInsert idx l k) :
    p'.1 = l ∨ p'.1 ∈ idx.map Prod.fst := by
  rcases idxInsert_mem_rev idx l k p' hp' with h | h | ⟨s, hmem, hor⟩
  · exact Or.inr (List.mem_map_of_mem Prod.fst h)
  · subst h
    exact Or.inl rfl
  · rcases hor with h | ⟨h, _⟩ <;> subst h <;> exact Or.inl rfl

theorem idxInsert_sorted (idx : LengthIdx) (l : ChainLength) (k : HeaderId)
    (hs : IdxSorted idx) : IdxSorted (idxInsert idx l k) := by
  induction idx with
  | nil => exact List.pairwise_singleton _ _
  | cons q r ih =>
    rcases q with ⟨l0, s0⟩
    rcases List.pairwise_cons.mp hs with ⟨hhead, htail⟩
    rw [idxInsert_cons]
    by_cases h1 : l < l0
    · rw [if_pos h1]
      refine List.pairwise_cons.mpr ⟨?_, hs⟩
      intro q hq
      rcases List.mem_cons.mp hq with h | h
      · rw [h]
        exact h1
      · exact Nat.lt_trans h1 (hhead q h)
    · rw [if_neg h1]
      by_cases h2 : l = l0
      · rw [if_pos h2]
        exact List.pairwise_cons.mpr ⟨fun q hq => hhead q hq, htail⟩
      · rw [if_neg h2]
        refine List.pairwise_cons.mpr ⟨?_, ih htail⟩
        intro q hq
        rcases idxInsert_key r l k q hq with h | h
        · rw [h]
          exact Nat.lt_of_le_of_ne (Nat.le_of_not_lt h1) (fun hh => h2 hh.symm)
        · obtain ⟨p, hp, hfst⟩ := List.mem_map.mp h
          rw [← hfst]
          exact hhead p hp

theorem idxInsert_disj (idx : LengthIdx) (l : ChainLength) (k : HeaderId)
    (hfresh : ∀ p ∈ idx, k ∉ p.2) (hd : BucketsDisjoint idx) :
    BucketsDisjoint (idxInsert idx l k) := by
  induction idx with
  | nil => exact List.pairwise_singleton _ _
  | cons q r ih =>
    rcases q with ⟨l0, s0⟩
    rcases List.pairwise_cons.mp hd with ⟨hhead, htail⟩
    have hfreshh : k ∉ s0 := hfresh (l0, s0) (List.mem_cons_self _ _)
    have hfreshr : ∀ p ∈ r, k ∉ p.2 :=
      fun p hp => hfresh p (List.mem_cons_of_mem _ hp)
    rw [idxInsert_cons]
    by_cases h1 : l < l0
    · rw [if_pos h1]
      refine List.pairwise_cons.mpr ⟨?_, hd⟩
      intro q hq k0 hk0
      rcases List.mem_singleton.mp hk0 with h
      subst h
      exact hfresh q hq
    · rw [if_neg h1]
      by_cases h2 : l = l0
      · rw [if_pos h2]
        refine List.pairwise_cons.mpr ⟨?_, htail⟩
        intro q hq k0 hk0
        by_cases h3 : k ∈ s0
        · rw [if_pos h3] at hk0
          exact hhead q hq k0 hk0
        · rw [if_neg h3] at hk0
          rcases List.mem_append.mp hk0 with h | h
          · exact hhead q hq k0 h
          · rcases List.mem_singleton.mp h with h
            subst h
            exact hfreshr q hq
      · rw [if_neg h2]
        refine List.pairwise_cons.mpr ⟨?_, ih hfreshr htail⟩
        intro q hq k0 hk0 hcon
        rcases idxInsert_content r l k q hq k0 hcon with h | ⟨p, hp, hfst, hk⟩
        · subst h
          exact hfreshh hk0
        · exact hhead p hp k0 hk0 hk

theorem idxInsert_nodup (idx : LengthIdx) (l : ChainLength) (k : HeaderId)
    (hnd : BucketsNodup idx) : BucketsNodup (idxInsert idx l k) := by
  intro p' hp'
  rcases idxInsert_mem_rev idx l k p' hp' with h | h | ⟨s, hmem, hor⟩
  · exact hnd p' h
  · subst h
    exact List.nodup_singleton k
  · rcases hor with h | ⟨h, hk⟩ <;> subst h
    · exact hnd (l, s) hmem
    · show (s ++ [k]).Nodup
      refine List.Nodup.append (hnd (l, s) hmem) (List.nodup_singleton k) ?_
      intro a ha hb
      rcases List.mem_singleton.mp hb with h
      subst h
      exact hk ha

theorem idxInsert_ne (idx : LengthIdx) (l : ChainLength) (k : HeaderId)
    (hne : ∀ p ∈ idx, p.2 ≠ ([] : List HeaderId)) :
    ∀ p' ∈ idxInsert idx l k, p'.2 ≠ ([] : List HeaderId) := by
  intro p' hp'
  rcases idxInsert_mem_rev idx l k p' hp' with h | h | ⟨s, hmem, hor⟩
  · exact hne p' h
  · subst h
    simp
  · rcases hor with h | ⟨h, _⟩ <;> subst h
    · exact hne (l, s) hmem
    · simp

/-- Well-formedness of a multiverse value: the representation invariants
of the two maps together with the coherence invariants I1/I2 of the spec
and the freshness discipline of the allocation model. -/
structure WF {σ : Type} (chainLen : σ → ChainLength) (w : Multiverse σ) : Prop where
  sorted : IdxSorted w.statesByChainLength
  bnodup : BucketsNodup w.statesByChainLength
  bdisj : BucketsDisjoint w.statesByChainLength
  bne : ∀ p ∈ w.statesByChainLength, p.2 ≠ ([] : List HeaderId)
  tkeys : (w.statesByHash.map Prod.fst).Nodup
  i1 : IdxInTable w
  i2 : ∀ k e, alook w.statesByHash k = some e →
      ∃ st, alook w.heap e.arcOf = some st ∧
        ∃ s, idxLook w.statesByChainLength (chainLen st) = some s ∧ k ∈ s
  arcInj : ∀ k1 k2 e1 e2, alook w.statesByHash k1 = some e1 →
      alook w.statesByHash k2 = some e2 → e1.arcOf = e2.arcOf → k1 = k2
  arcBound : ∀ k e, alook w.statesByHash k = some e → e.arcOf < w.nextArc

theorem new_WF {σ : Type} (chainLen : σ → ChainLength) :
    WF chainLen (Multiverse.new σ) := by
  refine ⟨List.Pairwise.nil, ?_, List.Pairwise.nil, ?_, List.nodup_nil, ?_, ?_, ?_, ?_⟩
  · intro p hp
    cases hp
  · intro p hp
    cases hp
  · intro p hp
    cases hp
  · intro k e h
    cases h
  · intro k1 k2 e1 e2 h1
    cases h1
  · intro k e h
    cases h

theorem keys_tset_absent {α : Type} (t : List (Nat × α)) (k : Nat) (v : α)
    (h : alook t k = none) : (tset t k v).map Prod.fst = t.map Prod.fst ++ [k] := by
  induction t with
  | nil => rfl
  | cons p r ih =>
    rcases p with ⟨k0, v0⟩
    by_cases hp : k0 = k
    · rw [alook, if_pos hp] at h
      cases h
    · rw [alook, if_neg hp] at h
      rw [tset, if_neg hp, List.map_cons, List.map_cons, ih h, List.cons_append]

theorem insert_WF {σ : Type} (chainLen : σ → ChainLength) (w : Multiverse σ)
    (k : HeaderId) (st : σ) (hwf : WF chainLen w)
    (hfresh : alook w.statesByHash k = none) :
    WF chainLen (w.add chainLen k st).2 := by
  have hfreshB : ∀ p ∈ w.statesByChainLength, k ∉ p.2 := by
    intro p hp hcon
    have := hwf.i1 p hp k hcon
    rw [hfresh] at this
    cases this
  have hkeys : ((w.add chainLen k st).2.statesByHash.map Prod.fst) =
      w.statesByHash.map Prod.fst ++ [k] :=
    keys_tset_absent w.statesByHash k (.Retained w.nextArc) hfresh
  refine ⟨?_, ?_, ?_, ?_, ?_, ?_, ?_, ?_, ?_⟩
  · exact idxInsert_sorted _ _ _ hwf.sorted
  · exact idxInsert_nodup _ _ _ hwf.bnodup
  · exact idxInsert_disj _ _ _ hfreshB hwf.bdisj
  · exact idxInsert_ne _ _ _ hwf.bne
  · rw [hkeys]
    refine List.Nodup.append hwf.tkeys (List.nodup_singleton k) ?_
    intro a ha hb
    have hak : a = k := List.mem_singleton.mp hb
    rw [hak] at ha
    have hsome := (alook_isSome_iff_mem_keys w.statesByHash k).mpr ha
    rw [hfresh] at hsome
    cases hsome
  · intro p' hp' k0 hk0
    rcases idxInsert_content _ _ _ p' hp' k0 hk0 with h | ⟨p, hp, hfst, hk⟩
    · rw [show (w.add chainLen k st).2.statesByHash =
        tset w.statesByHash k (.Retained w.nextArc) from rfl, h, alook_tset_self]
      rfl
    · have := hwf.i1 p hp k0 hk
      exact alook_isSome_tset w.statesByHash k0 k (.Retained w.nextArc) this
  · intro k0 e h
    by_cases hk : k = k0
    · subst hk
      rw [show (w.add chainLen k st).2.statesByHash =
        tset w.statesByHash k (.Retained w.nextArc) from rfl, alook_tset_self] at h
      cases h
      refine ⟨st, ?_, ?_⟩
      · show alook ((w.nextArc, st) :: w.heap) (GcEntry.Retained w.nextArc).arcOf =
          some st
        show alook ((w.nextArc, st) :: w.heap) w.nextArc = some st
        rw [alook, if_pos rfl]
      · exact idxLook_idxInsert_self _ _ _
    · rw [show (w.add chainLen k st).2.statesByHash =
        tset w.statesByHash k (.Retained w.nextArc) from rfl,
        alook_tset_ne _ _ _ _ hk] at h
      obtain ⟨st0, hheap, s, hlook, hmem⟩ := hwf.i2 k0 e h
      have harcb := hwf.arcBound k0 e h
      refine ⟨st0, ?_, ?_⟩
      · show alook ((w.nextArc, st) :: w.heap) e.arcOf = some st0
        rw [alook, if_neg (Nat.ne_of_gt harcb)]
        exact hheap
      · obtain ⟨s1, hs1, hsub⟩ := idxLook_idxInsert_preserve w.statesByChainLength
          (chainLen st) k (chainLen st0) s hwf.sorted hlook
        exact ⟨s1, hs1, hsub k0 hmem⟩
  · intro k1 k2 e1 e2 h1 h2 harc
    by_cases hk1 : k = k1 <;> by_cases hk2 : k = k2
    · rw [← hk1, ← hk2]
    · subst hk1
      rw [show (w.add chainLen k st).2.statesByHash =
        tset w.statesByHash k (.Retained w.nextArc) from rfl, alook_tset_self] at h1
      rw [show (w.add chainLen k st).2.statesByHash =
        tset w.statesByHash k (.Retained w.nextArc) from rfl,
        alook_tset_ne _ _ _ _ hk2] at h2
      cases h1
      have := hwf.arcBound k2 e2 h2
      rw [← harc] at this
      exact absurd this (Nat.lt_irrefl _)
    · subst hk2
      rw [show (w.add chainLen k st).2.statesByHash =
        tset w.statesByHash k (.Retained w.nextArc) from rfl, alook_tset_self] at h2
      rw [show (w.add chainLen k st).2.statesByHash =
        tset w.statesByHash k (.Retained w.nextArc) from rfl,
        alook_tset_ne _ _ _ _ hk1] at h1
      cases h2
      have := hwf.arcBound k1 e1 h1
      rw [harc] at this
      exact absurd this (Nat.lt_irrefl _)
    · rw [show (w.add chainLen k st).2.statesByHash =
        tset w.statesByHash k (.Retained w.nextArc) from rfl,
        alook_tset_ne _ _ _ _ hk1] at h1
      rw [show (w.add chainLen k st).2.statesByHash =
        tset w.statesByHash k (.Retained w.nextArc) from rfl,
        alook_tset_ne _ _ _ _ hk2] at h2
      exact hwf.arcInj k1 k2 e1 e2 h1 h2 harc
  · intro k0 e h
    show e.arcOf < w.nextArc + 1
    by_cases hk : k = k0
    · subst hk
      rw [show (w.add chainLen k st).2.statesByHash =
        tset w.statesByHash k (.Retained w.nextArc) from rfl, alook_tset_self] at h
      cases h
      exact Nat.lt_succ_self _
    · rw [show (w.add chainLen k st).2.statesByHash =
        tset w.statesByHash k (.Retained w.nextArc) from rfl,
        alook_tset_ne _ _ _ _ hk] at h
      exact Nat.lt_succ_of_lt (hwf.arcBound k0 e h)

theorem drop_WF {σ : Type} (chainLen : σ → ChainLength) (w : Multiverse σ)
    (r : Ref) (hwf : WF chainLen w) : WF chainLen (w.dropRef r) :=
  ⟨hwf.sorted, hwf.bnodup, hwf.bdisj, hwf.bne, hwf.tkeys,
   fun p hp k hk => hwf.i1 p hp k hk, hwf.i2, hwf.arcInj, hwf.arcBound⟩

theorem gc_WF {σ : Type} (chainLen : σ → ChainLength) (w w' : Multiverse σ)
    (hwf : WF chainLen w) (hgc : w.gc = some w') : WF chainLen w' := by
  rcases hlast : w.statesByChainLength.getLast? with _ | ⟨tip, bs0⟩
  · rw [gc_eq_none_case w hlast] at hgc
    cases hgc
    exact hwf
  · rw [gc_eq_tip_case w tip bs0 hlast] at hgc
    rcases hanc : nthAncestor tip SUFFIX_TO_KEEP with _ | thr
    · rw [gcWithTip_none w tip hanc] at hgc
      cases hgc
      exact hwf
    · rw [gcWithTip_some w tip thr hanc] at hgc
      unfold gcRun at hgc
      rcases hgb : gcBelow w.pins tip 0
          (w.statesByChainLength.takeWhile (fun b => decide (b.1 < thr)))
          w.statesByHash with _ | ⟨bs', t'⟩ <;> rw [hgb] at hgc
      · cases hgc
      · simp only [Option.map_some', Option.some.injEq] at hgc
        rw [← hgc]
        clear hgc
        set below := w.statesByChainLength.takeWhile (fun b => decide (b.1 < thr))
          with hbelow
        set above := w.statesByChainLength.dropWhile (fun b => decide (b.1 < thr))
          with habove
        have hsplit : below ++ above = w.statesByChainLength :=
          List.takeWhile_append_dropWhile _ w.statesByChainLength
        have hsubB : below.Sublist w.statesByChainLength := List.takeWhile_sublist _
        have hsubA : above.Sublist w.statesByChainLength := List.dropWhile_sublist _
        have hsortsplit : List.Pairwise (fun p q => p.1 < q.1) (below ++ above) := by
          rw [hsplit]
          exact hwf.sorted
        obtain ⟨hsortB, hsortA, hcrossBA⟩ := List.pairwise_append.mp hsortsplit
        have hdisjsplit : List.Pairwise
            (fun p q => ∀ k : HeaderId, k ∈ p.2 → k ∉ q.2) (below ++ above) := by
          rw [hsplit]
          exact hwf.bdisj
        obtain ⟨hdisjB, hdisjA, hdcrossBA⟩ := List.pairwise_append.mp hdisjsplit
        obtain ⟨g1, g2, g3, g4, g5, g6, g7, g8⟩ := gcBelow_spec w.pins tip below 0
          w.statesByHash bs' t'
          (fun p hp => hwf.bnodup p (hsubB.subset hp))
          (hwf.bdisj.sublist hsubB)
          (fun p hp => hwf.bne p (hsubB.subset hp))
          (fun p hp k hk => hwf.i1 p (hsubB.subset hp) k hk)
          hwf.tkeys hgb
        have hmemB : ∀ p' ∈ bs', ∃ hs0, (p'.1, hs0) ∈ below ∧
            (p'.2 : List HeaderId).Sublist hs0 :=
          fun p' hp' => BucketThin.mem_rev below bs' g8 p' hp'
        have hkeylt : ∀ p' ∈ bs', p'.1 < thr := by
          intro p' hp'
          obtain ⟨hs0, hmem0, _⟩ := hmemB p' hp'
          exact mem_below_lt w.statesByChainLength thr (p'.1, hs0) hmem0
        have hkeyge : ∀ q ∈ above, ¬ q.1 < thr :=
          fun q hq => mem_above_ge w.statesByChainLength hwf.sorted thr q hq
        have hsorted' : IdxSorted (bs' ++ above) := by
          refine List.pairwise_append.mpr
            ⟨BucketThin.sorted below bs' g8 hsortB, hsortA, ?_⟩
          intro p' hp' q hq
          obtain ⟨hs0, hmem0, _⟩ := hmemB p' hp'
          exact hcrossBA (p'.1, hs0) hmem0 q hq
        have hnotinB : ∀ (k : HeaderId) (q : ChainLength × List HeaderId),
            q ∈ above → k ∈ q.2 → ∀ p ∈ below, k ∉ p.2 := by
          intro k q hq hk p hp hcon
          exact hdcrossBA p hp q hq k hcon hk
        refine ⟨hsorted', ?_, ?_, ?_, ?_, ?_, ?_, ?_, ?_⟩
        · intro p hp
          rcases List.mem_append.mp hp with h | h
          · obtain ⟨hne0, hs0, hmem0, hsub0⟩ := g3 p h
            exact ((hwf.bnodup (p.1, hs0) (hsubB.subset hmem0)).sublist hsub0)
          · exact hwf.bnodup p (hsubA.subset h)
        · refine List.pairwise_append.mpr
            ⟨BucketThin.disj below bs' g8 hdisjB, hdisjA, ?_⟩
          intro p' hp' q hq k hk
          obtain ⟨hs0, hmem0, hsub0⟩ := hmemB p' hp'
          exact hdcrossBA (p'.1, hs0) hmem0 q hq k (hsub0.subset hk)
        · intro p hp
          rcases List.mem_append.mp hp with h | h
          · exact (g3 p h).1
          · exact hwf.bne p (hsubA.subset h)
        · exact hwf.tkeys.sublist g6
        · intro p hp k hk
          rcases List.mem_append.mp hp with h | h
          · obtain ⟨hne0, hs0, hmem0, hsub0⟩ := g3 p h
            rcases g4 (p.1, hs0) hmem0 k (hsub0.subset hk) with ⟨ha, _⟩ | ⟨_, hnb⟩
            · exact ha
            · exact absurd hk (hnb p h)
          · have huntouched : alook t' k = alook w.statesByHash k :=
              g2 k (fun p0 hp0 => hnotinB k p h hk p0 hp0)
            show (alook t' k).isSome
            rw [huntouched]
            exact hwf.i1 p (hsubA.subset h) k hk
        · intro k e' h'
          obtain ⟨e, he, harc⟩ := g5 k e' h'
          obtain ⟨st, hheap, s, hlookup, hmem⟩ := hwf.i2 k e he
          refine ⟨st, ?_, ?_⟩
          · show alook w.heap e'.arcOf = some st
            rw [harc]
            exact hheap
          · have hmemidx : (chainLen st, s) ∈ below ++ above := by
              rw [hsplit]
              exact idxLook_mem w.statesByChainLength (chainLen st) s hlookup
            rcases List.mem_append.mp hmemidx with hb | hb
            · rcases g4 (chainLen st, s) hb k hmem with ⟨ha, s', hs'mem, hk's⟩ | ⟨hna, _⟩
              · exact ⟨s', idxLook_of_sorted_mem (bs' ++ above) (chainLen st) s'
                  hsorted' (List.mem_append_left _ hs'mem), hk's⟩
              · rw [h'] at hna
                cases hna
            · have hclge : ¬ (chainLen st) < thr :=
                hkeyge (chainLen st, s) hb
              refine ⟨s, ?_, hmem⟩
              rw [idxLook_append_skip bs' above (chainLen st)
                (fun p' hp' hcon => hclge (hcon ▸ hkeylt p' hp'))]
              have hlookup2 : idxLook (below ++ above) (chainLen st) = some s := by
                rw [hsplit]
                exact hlookup
              rw [idxLook_append_skip below above (chainLen st)
                (fun p hp hcon => hclge (hcon ▸
                  mem_below_lt w.statesByChainLength thr p hp))] at hlookup2
              exact hlookup2
        · intro k1 k2 e1 e2 h1 h2 harc
          obtain ⟨e1o, he1, ha1⟩ := g5 k1 e1 h1
          obtain ⟨e2o, he2, ha2⟩ := g5 k2 e2 h2
          exact hwf.arcInj k1 k2 e1o e2o he1 he2 (by rw [← ha1, ← ha2, harc])
        · intro k e h
          obtain ⟨eo, heo, hao⟩ := g5 k e h
          show e.arcOf < w.nextArc
          rw [hao]
          exact hwf.arcBound k eo heo

/-- Worlds reachable from `new()` by `add` with fresh ids, successful
`gc`, and pin drops. -/
inductive Reach {σ : Type} (chainLen : σ → ChainLength) : Multiverse σ → Prop
  | init : Reach chainLen (Multiverse.new σ)
  | addStep (w : Multiverse σ) (k : HeaderId) (st : σ) : Reach chainLen w →
      alook w.statesByHash k = none → Reach chainLen (w.add chainLen k st).2
  | gcStep (w w' : Multiverse σ) : Reach chainLen w → w.gc = some w' →
      Reach chainLen w'
  | dropStep (w : Multiverse σ) (r : Ref) : Reach chainLen w →
      Reach chainLen (w.dropRef r)

theorem reach_WF {σ : Type} (chainLen : σ → ChainLength) (w : Multiverse σ)
    (h : Reach chainLen w) : WF chainLen w := by
  induction h with
  | init => exact new_WF chainLen
  | addStep w k st hr hfresh ih => exact insert_WF chainLen w k st ih hfresh
  | gcStep w w' hr hgc ih => exact gc_WF chainLen w w' ih hgc
  | dropStep w r hr ih => exact drop_WF chainLen w r ih

/-- C5: index coherence.  Starting from `new()`, after any sequence of
`add` calls with fresh ids, `gc` calls (and pin drops), every block id in
the state table is a member of the length-index bucket keyed by its
state chain length, every block id in any bucket is a key of the state
table, and no empty bucket remains. -/
theorem c5_index_coherence {σ : Type} (chainLen : σ → ChainLength)
    (w : Multiverse σ) (hr : Reach chainLen w) :
    (∀ k e, alook w.statesByHash k = some e →
      ∃ st, alook w.heap e.arcOf = some st ∧
        ∃ s, idxLook w.statesByChainLength (chainLen st) = some s ∧ k ∈ s) ∧
    IdxInTable w ∧
    (∀ p ∈ w.statesByChainLength, p.2 ≠ ([] : List HeaderId)) :=
  ⟨(reach_WF chainLen w hr).i2, (reach_WF chainLen w hr).i1,
   (reach_WF chainLen w hr).bne⟩

/-- Concrete reachable world for the coherence witness: one fresh `add`
followed by one `gc`. -/
def w5c : Multiverse Nat := ((Multiverse.new Nat).add id 3 5).2

/-- Witness for `c5_index_coherence` at a concrete reachable world. -/
theorem c5_index_coherence_witness :
    (alook w5c.statesByHash 3).isSome ∧
    (∃ s, idxLook w5c.statesByChainLength 5 = some s ∧ 3 ∈ s) := by
  have hr : Reach (σ := Nat) id w5c :=
    Reach.gcStep _ _ (Reach.addStep (Multiverse.new Nat) 3 5 Reach.init rfl) rfl
  obtain ⟨h2, h1, hne⟩ := c5_index_coherence id w5c hr
  refine ⟨h1 (5, [3]) (by decide) 3 (by decide), ?_⟩
  obtain ⟨st, hheap, s, hlook, hmem⟩ := h2 3 (.Retained 0) rfl
  have hst : st = 5 := by
    have : alook w5c.heap 0 = some 5 := rfl
    rw [show (GcEntry.Retained 0).arcOf = 0 from rfl] at hheap
    rw [this] at hheap
    cases hheap
    rfl
  rw [hst] at hlook
  exact ⟨s, hlook, hmem⟩

/-! ### Claim C7: idempotence of the garbage collector -/

theorem mem_alook_of_nodup {α : Type} (t : List (Nat × α)) (k : Nat) (v : α)
    (hnd : (t.map Prod.fst).Nodup) (hmem : (k, v) ∈ t) : alook t k = some v := by
  induction t with
  | nil => cases hmem
  | cons p r ih =>
    rcases p with ⟨k0, v0⟩
    rcases List.nodup_cons.mp hnd with ⟨hk0, hr⟩
    rcases List.mem_cons.mp hmem with h | h
    · cases h
      rw [alook, if_pos rfl]
    · have hne : k0 ≠ k := by
        intro hcon
        subst hcon
        exact hk0 (List.mem_map.mpr ⟨(k0, v), h, rfl⟩)
      rw [alook, if_neg hne]
      exact ih hr h

/-- Arc injectivity of a table (each allocation referenced by at most one
entry), stated on lookups. -/
def ArcInjT (t : List (HeaderId × GcEntry)) : Prop :=
  ∀ k1 k2 e1 e2, alook t k1 = some e1 → alook t k2 = some e2 →
    e1.arcOf = e2.arcOf → k1 = k2

theorem tableStrong_eq_zero (t : List (HeaderId × GcEntry)) (a : Nat)
    (h : ∀ p ∈ t, p.2 ≠ GcEntry.Retained a) : tableStrong t a = 0 := by
  unfold tableStrong
  rw [List.length_eq_zero, List.filter_eq_nil_iff]
  intro p hp
  simp only [beq_iff_eq]
  exact h p hp

theorem alook_mem {α : Type} (t : List (Nat × α)) (k : Nat) (v : α)
    (h : alook t k = some v) : (k, v) ∈ t := by
  induction t with
  | nil => cases h
  | cons p r ih =>
    rcases p with ⟨k0, v0⟩
    by_cases hp : k0 = k
    · subst hp
      rw [alook, if_pos rfl] at h
      cases h
      exact List.mem_cons_self _ _
    · rw [alook, if_neg hp] at h
      exact List.mem_cons_of_mem _ (ih h)

theorem tableStrong_zero_of_arcInj (t : List (HeaderId × GcEntry)) (k : HeaderId)
    (e : GcEntry) (htk : (t.map Prod.fst).Nodup) (hinj : ArcInjT t)
    (he : alook t k = some e) :
    tableStrong (tset t k e.downgrade) e.arcOf = 0 := by
  apply tableStrong_eq_zero
  intro p hp hcon
  have hpk : alook (tset t k e.downgrade) p.1 = some p.2 := by
    apply mem_alook_of_nodup _ _ _ _ (by rw [← Prod.mk.eta (p := p)]; exact hp)
    rw [keys_tset_of_mem t k e.downgrade (by rw [he]; rfl)]
    exact htk
  by_cases hk : p.1 = k
  · rw [hk, alook_tset_self] at hpk
    have h2 : e.downgrade = GcEntry.Retained e.arcOf :=
      (Option.some.inj hpk).trans hcon
    rw [GcEntry.downgrade_eq_collectable] at h2
    cases h2
  · rw [alook_tset_ne t p.1 k e.downgrade (fun hh => hk hh.symm)] at hpk
    have harc : p.2.arcOf = e.arcOf := by
      rw [hcon]
      rfl
    exact hk (hinj p.1 k p.2 e hpk he harc)

theorem arcInj_tset_downgrade (t : List (HeaderId × GcEntry)) (k : HeaderId)
    (e : GcEntry) (hinj : ArcInjT t) (he : alook t k = some e) :
    ArcInjT (tset t k e.downgrade) := by
  intro k1 k2 e1 e2 h1 h2 harc
  have conv : ∀ k0 e0, alook (tset t k e.downgrade) k0 = some e0 →
      ∃ e0o, alook t k0 = some e0o ∧ e0o.arcOf = e0.arcOf := by
    intro k0 e0 h0
    by_cases hk : k = k0
    · subst hk
      rw [alook_tset_self] at h0
      cases h0
      exact ⟨e, he, (GcEntry.arcOf_downgrade e).symm⟩
    · rw [alook_tset_ne t k0 k e.downgrade hk] at h0
      exact ⟨e0, h0, rfl⟩
  obtain ⟨e1o, he1, ha1⟩ := conv k1 e1 h1
  obtain ⟨e2o, he2, ha2⟩ := conv k2 e2 h2
  exact hinj k1 k2 e1o e2o he1 he2 (by rw [ha1, ha2, harc])

theorem arcInj_tdel (t : List (HeaderId × GcEntry)) (k : HeaderId)
    (htk : (t.map Prod.fst).Nodup) (hinj : ArcInjT t) : ArcInjT (tdel t k) := by
  intro k1 k2 e1 e2 h1 h2 harc
  have conv : ∀ k0 e0, alook (tdel t k) k0 = some e0 → alook t k0 = some e0 := by
    intro k0 e0 h0
    by_cases hk : k = k0
    · subst hk
      rw [alook_tdel_self_of_nodup t k htk] at h0
      cases h0
    · rwa [alook_tdel_ne t k0 k hk] at h0
  exact hinj k1 k2 e1 e2 (conv k1 e1 h1) (conv k2 e2 h2) harc

theorem arcInj_of_spec (t t' : List (HeaderId × GcEntry)) (hinj : ArcInjT t)
    (hmap : ∀ k e', alook t' k = some e' →
      ∃ e, alook t k = some e ∧ e'.arcOf = e.arcOf) : ArcInjT t' := by
  intro k1 k2 e1 e2 h1 h2 harc
  obtain ⟨e1o, he1, ha1⟩ := hmap k1 e1 h1
  obtain ⟨e2o, he2, ha2⟩ := hmap k2 e2 h2
  exact hinj k1 k2 e1o e2o he1 he2 (by rw [← ha1, ← ha2, harc])

/-- Survivors of a retain pass hold demoted entries whose allocation is
kept alive by a pin. -/
theorem collectBucket_survivors (pins : List Nat) (ks : List HeaderId)
    (t : List (HeaderId × GcEntry)) (ks' : List HeaderId)
    (t' : List (HeaderId × GcEntry)) (hnd : ks.Nodup)
    (htk : (t.map Prod.fst).Nodup) (hinj : ArcInjT t)
    (hres : collectBucket pins ks t = some (ks', t')) :
    ∀ k ∈ ks', ∃ a, alook t' k = some (.Collectable a) ∧ 0 < pins.count a := by
  induction ks generalizing t ks' t' with
  | nil =>
    simp only [collectBucket, Option.some.injEq, Prod.mk.injEq] at hres
    obtain ⟨h1, h2⟩ := hres
    subst h1
    intro k hk
    cases hk
  | cons k0 ks ih =>
    rcases List.nodup_cons.mp hnd with ⟨hk0, hndks⟩
    rcases he : alook t k0 with _ | e
    · simp [collectBucket, he] at hres
    · simp only [collectBucket, he, GcEntry.collect_eq] at hres
      have hzero := tableStrong_zero_of_arcInj t k0 e htk hinj he
      have htk1 : ((tset t k0 e.downgrade).map Prod.fst).Nodup :=
        keys_nodup_tset t k0 e.downgrade (by rw [he]; rfl) htk
      have hinj1 : ArcInjT (tset t k0 e.downgrade) :=
        arcInj_tset_downgrade t k0 e hinj he
      rcases hdead : (tableStrong (tset t k0 e.downgrade) e.arcOf +
          pins.count e.arcOf == 0) with _ | _ <;> rw [hdead] at hres
      · -- alive
        rw [if_neg Bool.false_ne_true] at hres
        rcases hrec : collectBucket pins ks (tset t k0 e.downgrade) with
          _ | ⟨ks1, t1⟩ <;> rw [hrec] at hres
        · cases hres
        · simp only [Option.some.injEq, Prod.mk.injEq] at hres
          obtain ⟨h1, h2⟩ := hres
          subst h2
          subst h1
          have hcount : 0 < pins.count e.arcOf := by
            have hne := (beq_eq_false_iff_ne (a := tableStrong
              (tset t k0 e.downgrade) e.arcOf + pins.count e.arcOf) (b := 0)).mp hdead
            omega
          intro k hk
          rcases List.mem_cons.mp hk with h | h
          · subst h
            obtain ⟨s1, s2, s3, s4, s5, s6, s7⟩ :=
              collectBucket_spec pins ks (tset t k e.downgrade) ks1 t1 hndks htk1 hrec
            refine ⟨e.arcOf, ?_, hcount⟩
            rw [s2 k hk0, alook_tset_self, GcEntry.downgrade_eq_collectable]
          · exact ih (tset t k0 e.downgrade) ks1 t1 hndks htk1 hinj1 hrec k h
      · -- dead
        rw [if_pos rfl] at hres
        rcases hrec : collectBucket pins ks (tdel (tset t k0 e.downgrade) k0) with
          _ | ⟨ks1, t1⟩ <;> rw [hrec] at hres
        · cases hres
        · simp only [Option.some.injEq, Prod.mk.injEq] at hres
          obtain ⟨h1, h2⟩ := hres
          subst h2
          subst h1
          exact ih _ ks1 t1 hndks (keys_nodup_tdel _ k0 htk1)
            (arcInj_tdel _ k0 htk1 hinj1) hrec

/-- A retain pass over a bucket whose entries are all demoted and pinned
changes nothing. -/
theorem collectBucket_stable (pins : List Nat) (ks : List HeaderId)
    (t : List (HeaderId × GcEntry))
    (h : ∀ k ∈ ks, ∃ a, alook t k = some (.Collectable a) ∧ 0 < pins.count a) :
    collectBucket pins ks t = some (ks, t) := by
  induction ks with
  | nil => rfl
  | cons k ks ih =>
    obtain ⟨a, he, hcnt⟩ := h k (List.mem_cons_self _ _)
    have hdg : (GcEntry.Collectable a).downgrade = .Collectable a := rfl
    have hset : tset t k (GcEntry.Collectable a).downgrade = t := by
      rw [hdg]
      exact tset_eq_self t k _ he
    simp only [collectBucket, he, GcEntry.collect_eq, hset]
    have hne : (tableStrong t (GcEntry.Collectable a).arcOf +
        pins.count (GcEntry.Collectable a).arcOf == 0) = false := by
      rw [beq_eq_false_iff_ne, ne_eq]
      show ¬ (tableStrong t a + pins.count a = 0)
      omega
    rw [hne, if_neg Bool.false_ne_true, ih (fun k1 hk1 => h k1 (List.mem_cons_of_mem _ hk1))]

/-- A second `gcBelow` pass over the output of a first pass, with the
same pins and the same starting cursor, changes nothing: kept buckets
are kept again with the same cursor advance, and every survivor of a
collected bucket is already demoted and still pinned, so the retain pass
leaves it in place. -/
theorem gcBelow_idem (pins : List Nat) (tip : ChainLength) (bs : LengthIdx)
    (toKeep : ChainLength) (t : List (HeaderId × GcEntry)) (bs' : LengthIdx)
    (t' : List (HeaderId × GcEntry))
    (hnd : ∀ p ∈ bs, (p.2 : List HeaderId).Nodup)
    (hdisj : List.Pairwise (fun p q => ∀ k : HeaderId, k ∈ p.2 → k ∉ q.2) bs)
    (htk : (t.map Prod.fst).Nodup)
    (hinj : ArcInjT t)
    (hres : gcBelow pins tip toKeep bs t = some (bs', t')) :
    gcBelow pins tip toKeep bs' t' = some (bs', t') := by
  induction bs generalizing toKeep t bs' t' with
  | nil =>
    simp only [gcBelow, Option.some.injEq, Prod.mk.injEq] at hres
    obtain ⟨h1, h2⟩ := hres
    subst h1
    subst h2
    rfl
  | cons b rest ih =>
    rcases b with ⟨l, hs⟩
    have hndhd : hs.Nodup := hnd (l, hs) (List.mem_cons_self _ _)
    have hndrest : ∀ p ∈ rest, (p.2 : List HeaderId).Nodup :=
      fun p hp => hnd p (List.mem_cons_of_mem _ hp)
    rcases List.pairwise_cons.mp hdisj with ⟨hdhd, hdrest⟩
    by_cases hkeep : toKeep ≤ l
    · simp only [gcBelow, if_pos hkeep] at hres
      rcases hrec : gcBelow pins tip (l + (tip - l) / 2) rest t with _ | ⟨rest', t1⟩
      · simp [hrec] at hres
      · simp only [hrec, Option.some.injEq, Prod.mk.injEq] at hres
        obtain ⟨h1, h2⟩ := hres
        subst h1
        subst h2
        have hih := ih (l + (tip - l) / 2) t rest' t1 hndrest hdrest htk hinj hrec
        simp only [gcBelow, if_pos hkeep, hih]
    · simp only [gcBelow, if_neg hkeep] at hres
      rcases hcb : collectBucket pins hs t with _ | ⟨hs1, t1⟩
      · simp [hcb] at hres
      · simp only [hcb] at hres
        rcases hrec : gcBelow pins tip toKeep rest t1 with _ | ⟨rest', t2⟩
        · simp [hrec] at hres
        · simp only [hrec, Option.some.injEq, Prod.mk.injEq] at hres
          obtain ⟨h1, h2⟩ := hres
          subst h2
          subst h1
          obtain ⟨s1, s2, s3, s4, s5, s6, s7⟩ :=
            collectBucket_spec pins hs t hs1 t1 hndhd htk hcb
          have htk1 : (t1.map Prod.fst).Nodup := htk.sublist s5
          have hinj1 : ArcInjT t1 := arcInj_of_spec t t1 hinj s4
          have hsurv1 := collectBucket_survivors pins hs t hs1 t1 hndhd htk hinj hcb
          have hsurv2 : ∀ k ∈ hs1,
              ∃ a, alook t2 k = some (.Collectable a) ∧ 0 < pins.count a := by
            intro k hk
            obtain ⟨a, ha, hc⟩ := hsurv1 k hk
            have hknot : ∀ p ∈ rest, k ∉ p.2 :=
              fun p hp => hdhd p hp k (s1.subset hk)
            refine ⟨a, ?_, hc⟩
            rw [gcBelow_alook_of_not_mem pins tip rest toKeep t1 k hknot
              (rest', t2) hrec]
            exact ha
          have hih := ih toKeep t1 rest' t2 hndrest hdrest htk1 hinj1 hrec
          rcases hemp : hs1.isEmpty with _ | _
          · have hstab : collectBucket pins hs1 t2 = some (hs1, t2) :=
              collectBucket_stable pins hs1 t2 hsurv2
            rw [if_neg Bool.false_ne_true]
            simp only [gcBelow, if_neg hkeep, hstab, hih, hemp]
            rw [if_neg Bool.false_ne_true]
          · rw [if_pos rfl]
            exact hih

/-- If the scan of the below-threshold buckets returns its own input,
the whole `gc` body is the identity. -/
theorem gcRun_self {σ : Type} (w : Multiverse σ) (tip thr : ChainLength)
    (hgb : gcBelow w.pins tip 0
        (w.statesByChainLength.takeWhile (fun b => decide (b.1 < thr)))
        w.statesByHash =
      some (w.statesByChainLength.takeWhile (fun b => decide (b.1 < thr)),
        w.statesByHash)) :
    gcRun w tip thr = some w := by
  unfold gcRun
  rw [hgb]
  simp only [Option.map_some', Option.some.injEq]
  rw [List.takeWhile_append_dropWhile]

/-- C7: GC idempotence.  On a well-formed multiverse, two back-to-back
`gc()` calls with no intervening `add` and no pin handles created or
dropped in between yield the same state as one: the second call returns
its input unchanged, and in particular `nr_states()` is unchanged by the
second call. -/
theorem c7_gc_idempotent {σ : Type} (chainLen : σ → ChainLength)
    (w w1 : Multiverse σ) (hwf : WF chainLen w) (hgc : w.gc = some w1) :
    w1.gc = some w1 ∧
    ∀ w2, w1.gc = some w2 → w2.nrStates = w1.nrStates := by
  have hwf1 : WF chainLen w1 := gc_WF chainLen w w1 hwf hgc
  rcases hlast : w.statesByChainLength.getLast? with _ | ⟨tip, bs0⟩
  · rw [gc_eq_none_case w hlast] at hgc
    have hw : w = w1 := Option.some.inj hgc
    subst hw
    have h1 : w.gc = some w := gc_eq_none_case w hlast
    exact ⟨h1, fun w2 h2 => by
      rw [h1] at h2
      injection h2 with h3
      rw [← h3]⟩
  · rw [gc_eq_tip_case w tip bs0 hlast] at hgc
    rcases hanc : nthAncestor tip SUFFIX_TO_KEEP with _ | thr
    · rw [gcWithTip_none w tip hanc] at hgc
      have hw : w = w1 := Option.some.inj hgc
      subst hw
      have h1 : w.gc = some w := by
        rw [gc_eq_tip_case w tip bs0 hlast]
        exact gcWithTip_none w tip hanc
      exact ⟨h1, fun w2 h2 => by
        rw [h1] at h2
        injection h2 with h3
        rw [← h3]⟩
    · rw [gcWithTip_some w tip thr hanc] at hgc
      unfold gcRun at hgc
      rcases hgb : gcBelow w.pins tip 0
          (w.statesByChainLength.takeWhile (fun b => decide (b.1 < thr)))
          w.statesByHash with _ | ⟨bs', t'⟩ <;> rw [hgb] at hgc
      · cases hgc
      · simp only [Option.map_some', Option.some.injEq] at hgc
        set below := w.statesByChainLength.takeWhile (fun b => decide (b.1 < thr))
          with hbelow
        set above := w.statesByChainLength.dropWhile (fun b => decide (b.1 < thr))
          with habove
        have hhash : w1.statesByHash = t' := by rw [← hgc]
        have hidx : w1.statesByChainLength = bs' ++ above := by rw [← hgc]
        have hpins : w1.pins = w.pins := by rw [← hgc]
        have hthr : thr ≤ tip := by
          unfold nthAncestor at hanc
          split at hanc
          · injection hanc with h
            rw [← h]
            exact Nat.sub_le tip SUFFIX_TO_KEEP
          · cases hanc
        have hmem_tip : (tip, bs0) ∈ w.statesByChainLength :=
          List.mem_of_mem_getLast? hlast
        have habove_ne : above ≠ [] := by
          intro hnil
          have hall := List.dropWhile_eq_nil_iff.mp hnil (tip, bs0) hmem_tip
          have hlt : tip < thr := by simpa using hall
          exact absurd hlt (Nat.not_lt.mpr hthr)
        have hsplit : below ++ above = w.statesByChainLength :=
          List.takeWhile_append_dropWhile _ w.statesByChainLength
        have hlast_above : above.getLast? = some (tip, bs0) := by
          rw [← List.getLast?_append_of_ne_nil below habove_ne, hsplit]
          exact hlast
        have hlast1 : w1.statesByChainLength.getLast? = some (tip, bs0) := by
          rw [hidx, List.getLast?_append_of_ne_nil bs' habove_ne]
          exact hlast_above
        have hsubB : below.Sublist w.statesByChainLength := List.takeWhile_sublist _
        have hndB : ∀ p ∈ below, (p.2 : List HeaderId).Nodup :=
          fun p hp => hwf.bnodup p (hsubB.subset hp)
        have hdisjB : List.Pairwise (fun p q => ∀ k : HeaderId, k ∈ p.2 → k ∉ q.2)
            below := by
          have h := hwf.bdisj
          unfold BucketsDisjoint at h
          exact List.Pairwise.sublist hsubB h
        have hneB : ∀ p ∈ below, p.2 ≠ ([] : List HeaderId) :=
          fun p hp => hwf.bne p (hsubB.subset hp)
        have hinB : ∀ p ∈ below, ∀ k ∈ p.2, (alook w.statesByHash k).isSome :=
          fun p hp => hwf.i1 p (hsubB.subset hp)
        obtain ⟨g1, g2, g3, g4, g5, g6, g7, g8⟩ :=
          gcBelow_spec w.pins tip below 0 w.statesByHash bs' t'
            hndB hdisjB hneB hinB hwf.tkeys hgb
        have hbplt : ∀ p ∈ bs', p.1 < thr := by
          intro p hp
          obtain ⟨-, hs0, hmem, -⟩ := g3 p hp
          exact mem_below_lt w.statesByChainLength thr (p.1, hs0) hmem
        have hage : ∀ p ∈ above, ¬ p.1 < thr :=
          fun p hp => mem_above_ge w.statesByChainLength hwf.sorted thr p hp
        have hsorted1 : IdxSorted (bs' ++ above) := by
          have h := hwf1.sorted
          rwa [hidx] at h
        have htw : (bs' ++ above).takeWhile (fun b => decide (b.1 < thr)) = bs' := by
          rw [takeWhile_lt_eq_filter _ hsorted1 thr, List.filter_append,
            List.filter_eq_self.mpr (fun p hp => by simp [hbplt p hp]),
            List.filter_eq_nil_iff.mpr (fun p hp => by simp [hage p hp]),
            List.append_nil]
        have hidem : gcBelow w.pins tip 0 bs' t' = some (bs', t') :=
          gcBelow_idem w.pins tip below 0 w.statesByHash bs' t'
            hndB hdisjB hwf.tkeys hwf.arcInj hgb
        have hgb2 : gcBelow w1.pins tip 0
            (w1.statesByChainLength.takeWhile (fun b => decide (b.1 < thr)))
            w1.statesByHash =
            some (w1.statesByChainLength.takeWhile (fun b => decide (b.1 < thr)),
              w1.statesByHash) := by
          rw [hpins, hhash, hidx, htw]
          exact hidem
        have h1 : w1.gc = some w1 := by
          rw [gc_eq_tip_case w1 tip bs0 hlast1, gcWithTip_some w1 tip thr hanc]
          exact gcRun_self w1 tip thr hgb2
        exact ⟨h1, fun w2 h2 => by
          rw [h1] at h2
          injection h2 with h3
          rw [← h3]⟩

/-- Concrete reachable world for the idempotence witness: three fresh
adds at strictly increasing lengths, all pins dropped, so the first `gc`
really collects a state. -/
def w7a : Multiverse Nat :=
  ((((((Multiverse.new Nat).add id 1 1).2.add id 2 5).2.add id 3 60).2.dropRef
      ⟨1, 0⟩).dropRef ⟨2, 1⟩).dropRef ⟨3, 2⟩

/-- The world after one `gc` on `w7a` (the state at length 5 is
collected). -/
def w7b : Multiverse Nat :=
  { statesByHash := [(1, .Retained 0), (3, .Retained 2)]
    statesByChainLength := [(1, [1]), (60, [3])]
    heap := [(2, 60), (1, 5), (0, 1)]
    pins := []
    nextArc := 3 }

/-- Witness for `c7_gc_idempotent` at a concrete reachable world. -/
theorem c7_gc_idempotent_witness : w7b.gc = some w7b :=
  (c7_gc_idempotent id w7a w7b
    (reach_WF id w7a
      (Reach.dropStep _ _ (Reach.dropStep _ _ (Reach.dropStep _ _
        (Reach.addStep _ 3 60
          (Reach.addStep _ 2 5
            (Reach.addStep _ 1 1 Reach.init rfl) rfl) rfl)))))
    rfl).1

/-! ### Claim C6: reconstruction correctness -/

theorem getRef_some {σ : Type} (w : Multiverse σ) (k : HeaderId) (a : Nat)
    (h : w.get k = some a) :
    w.getRef k = some (⟨k, a⟩, { w with pins := a :: w.pins }) := by
  unfold Multiverse.getRef
  rw [h]

theorem applyAll_append {σ β : Type} (applyBlock : σ → β → Except Nat σ)
    (g st : σ) (l1 l2 : List β) (h : applyAll applyBlock g l1 = .ok st) :
    applyAll applyBlock g (l1 ++ l2) = applyAll applyBlock st l2 := by
  induction l1 generalizing g with
  | nil =>
    simp only [applyAll, Except.ok.injEq] at h
    subst h
    rfl
  | cons b l1 ih =>
    rcases hb : applyBlock g b with e | st1
    · simp only [applyAll, hb] at h
      cases h
    · simp only [List.cons_append, applyAll, hb] at h ⊢
      exact ih st1 h

theorem applyAll_chainLen {σ β : Type} (chainLen : σ → ChainLength)
    (applyBlock : σ → β → Except Nat σ)
    (hstep : ∀ s b s', applyBlock s b = .ok s' → chainLen s' = chainLen s + 1)
    (g st : σ) (l : List β) (h : applyAll applyBlock g l = .ok st) :
    chainLen st = chainLen g + l.length := by
  induction l generalizing g with
  | nil =>
    simp only [applyAll, Except.ok.injEq] at h
    subst h
    rfl
  | cons b l ih =>
    rcases hb : applyBlock g b with e | st1
    · simp only [applyAll, hb] at h
      cases h
    · simp only [applyAll, hb] at h
      rw [ih st1 h, hstep g b st1 hb, List.length_cons, Nat.add_assoc,
        Nat.add_comm 1 l.length]

/-- The parent chain of `get_from_storage`'s walk, in walk order: from
`cur`, the listed ids are visited — none cached, none the zero sentinel,
each carrying a block info whose recorded chain length sits as many
steps above `ancLen` as ids remain — until the cached ancestor `anc` is
reached. -/
inductive ParentWalk {σ β : Type} (store : Store β) (w : Multiverse σ)
    (anc : HeaderId) (ancLen : ChainLength) : HeaderId → List HeaderId → Prop
  | done : ParentWalk store w anc ancLen anc []
  | step (cur : HeaderId) (info : BlockInfo) (cs : List HeaderId) :
      cur ≠ zeroHash → w.get cur = none →
      store.getBlockInfo cur = .ok info →
      info.chainLength = ancLen + cs.length + 1 →
      ParentWalk store w anc ancLen info.parentId cs →
      ParentWalk store w anc ancLen cur (cur :: cs)

/-- The walk loop stops at the cached ancestor, pins it, and hands the
visited ids (appended to the accumulator, in walk order) to the replay
phase. -/
theorem gfsWalk_seed {σ β : Type} (store : Store β) (w : Multiverse σ)
    (anc : HeaderId) (ancLen : ChainLength) (a : Nat) (cur : HeaderId)
    (cs : List HeaderId) (hpw : ParentWalk store w anc ancLen cur cs)
    (hanz : anc ≠ zeroHash) (hanc : w.get anc = some a) :
    ∀ fuel, cs.length < fuel → ∀ acc,
      gfsWalk store fuel w cur acc =
        some (.seed ⟨anc, a⟩ { w with pins := a :: w.pins } (acc ++ cs)) := by
  induction hpw with
  | done =>
    intro fuel hf acc
    cases fuel with
    | zero => cases hf
    | succ f =>
      rw [gfsWalk, if_neg hanz, getRef_some w anc a hanc, List.append_nil]
  | step cur info cs hcur hget hinfo hlen htail ih =>
    intro fuel hf acc
    cases fuel with
    | zero => cases hf
    | succ f =>
      simp only [gfsWalk, if_neg hcur, getRef_none w cur hget, hinfo]
      rw [ih f (Nat.lt_of_succ_lt_succ hf) (acc ++ [cur]), List.append_assoc,
        List.singleton_append]

/-- The replay loop, when every block is present and every application
succeeds: it returns `ok` with a pin on the last id, whose heap payload
is the fold of the blocks over the seed state; the state table only
grows and every replayed id ends up installed. -/
theorem gfsReplay_ok {σ β : Type} (chainLen : σ → ChainLength)
    (applyBlock : σ → β → Except Nat σ) (store : Store β) (blk : HeaderId → β)
    (stf : σ) (hs : List HeaderId) (r : Ref) (w : Multiverse σ) (st : σ)
    (hseed : alook w.heap r.arc = some st)
    (hblk : ∀ h ∈ hs, store.getBlock h = .ok (blk h))
    (happ : applyAll applyBlock st (hs.map blk) = .ok stf) :
    ∃ rf wf, gfsReplay chainLen applyBlock store hs r w = .ok rf wf ∧
      alook wf.heap rf.arc = some stf ∧
      rf.hash = hs.getLastD r.hash ∧
      (∀ k0, (alook w.statesByHash k0).isSome →
        (alook wf.statesByHash k0).isSome) ∧
      (∀ h ∈ hs, (alook wf.statesByHash h).isSome) := by
  induction hs generalizing r w st with
  | nil =>
    simp only [List.map_nil, applyAll, Except.ok.injEq] at happ
    subst happ
    exact ⟨r, w, rfl, hseed, rfl, fun k0 h => h,
      fun h hh => absurd hh (List.not_mem_nil h)⟩
  | cons h hs ih =>
    have hbh : store.getBlock h = .ok (blk h) := hblk h (List.mem_cons_self _ _)
    simp only [List.map_cons, applyAll] at happ
    rcases hab : applyBlock st (blk h) with reason | st1
    · simp only [hab] at happ
      cases happ
    · simp only [hab] at happ
      have hseed1 : alook ((w.add chainLen h st1).2.dropRef r).heap
          (⟨h, w.nextArc⟩ : Ref).arc = some st1 := by
        show alook ((w.nextArc, st1) :: w.heap) w.nextArc = some st1
        rw [alook, if_pos rfl]
      obtain ⟨rf, wf, hout, hpay, hhash, hmono, hmem⟩ :=
        ih ⟨h, w.nextArc⟩ ((w.add chainLen h st1).2.dropRef r) st1 hseed1
          (fun h1 hh1 => hblk h1 (List.mem_cons_of_mem _ hh1)) happ
      refine ⟨rf, wf, ?_, hpay, ?_, ?_, ?_⟩
      · simp only [gfsReplay, hbh, hseed, hab]
        exact hout
      · rw [hhash, List.getLastD_cons]
      · intro k0 hk0
        apply hmono
        show (alook (tset w.statesByHash h (.Retained w.nextArc)) k0).isSome
        exact alook_isSome_tset w.statesByHash k0 h _ hk0
      · intro h1 hh1
        rcases List.mem_cons.mp hh1 with h2 | h2
        · subst h2
          apply hmono
          show (alook (tset w.statesByHash h1 (.Retained w.nextArc)) h1).isSome
          rw [alook_tset_self]
          rfl
        · exact hmem h1 h2

/-- C6: reconstruction correctness.  For a block id `k` reachable from a
cached ancestor through the block store (walk path `k :: cs`, all
uncached), with every needed block present and applying cleanly,
`get_from_storage` returns `Ok` with a pin on `k` whose state is the
ancestor-first fold of the fetched blocks over the ancestor state; its
chain length equals the chain length recorded in the store for `k`;
every walked id is installed via `add`; and whenever the ancestor state
is itself the fold of some blocks from a genesis state, the returned
state is the fold of the full block sequence from that genesis state. -/
theorem c6_reconstruction {σ β : Type} (chainLen : σ → ChainLength)
    (applyBlock : σ → β → Except Nat σ) (store : Store β) (w : Multiverse σ)
    (k anc : HeaderId) (ancLen : ChainLength) (a : Nat) (cs : List HeaderId)
    (st stf : σ) (blk : HeaderId → β) (fuel : Nat)
    (hpw : ParentWalk store w anc ancLen k (k :: cs))
    (hanz : anc ≠ zeroHash) (hanc : w.get anc = some a)
    (hseed : alook w.heap a = some st) (hancLen : chainLen st = ancLen)
    (hblk : ∀ c ∈ (k :: cs).reverse, store.getBlock c = .ok (blk c))
    (happ : applyAll applyBlock st ((k :: cs).reverse.map blk) = .ok stf)
    (hstep : ∀ s b s', applyBlock s b = .ok s' → chainLen s' = chainLen s + 1)
    (hfuel : (k :: cs).length < fuel) :
    ∃ rf wf, Multiverse.getFromStorage chainLen applyBlock store fuel w k =
        some (.ok rf wf) ∧
      rf.hash = k ∧
      alook wf.heap rf.arc = some stf ∧
      (∀ info, store.getBlockInfo k = .ok info →
        chainLen stf = info.chainLength) ∧
      (∀ c ∈ k :: cs, (alook wf.statesByHash c).isSome) ∧
      ∀ (g : σ) (gbs : List β), applyAll applyBlock g gbs = .ok st →
        applyAll applyBlock g (gbs ++ (k :: cs).reverse.map blk) = .ok stf := by
  have hkuncached : w.get k = none := by
    cases hpw with
    | step cur2 info0 cs0 hcur hget hinfo0 hlen htail => exact hget
  have hseed1 : alook ({ w with pins := a :: w.pins } : Multiverse σ).heap
      ((⟨anc, a⟩ : Ref).arc) = some st := hseed
  obtain ⟨rf, wf, hout, hpay, hhash, hmono, hmem⟩ :=
    gfsReplay_ok chainLen applyBlock store blk stf ((k :: cs).reverse) ⟨anc, a⟩
      { w with pins := a :: w.pins } st hseed1 hblk happ
  refine ⟨rf, wf, ?_, ?_, hpay, ?_, ?_, ?_⟩
  · unfold Multiverse.getFromStorage
    rw [getRef_none w k hkuncached,
      gfsWalk_seed store w anc ancLen a k (k :: cs) hpw hanz hanc fuel hfuel []]
    exact congrArg some hout
  · rw [hhash, List.reverse_cons, List.getLastD_concat]
  · intro info hinfo
    cases hpw with
    | step cur2 info0 cs0 hcur hget hinfo0 hlen htail =>
      rw [hinfo0] at hinfo
      injection hinfo with h
      rw [← h, hlen,
        applyAll_chainLen chainLen applyBlock hstep st stf
          ((k :: cs).reverse.map blk) happ,
        hancLen]
      simp only [List.length_map, List.length_reverse, List.length_cons]
      rw [Nat.add_assoc]
  · intro c hc
    exact hmem c (List.mem_reverse.mpr hc)
  · intro g gbs hg
    rw [applyAll_append applyBlock g st gbs _ hg]
    exact happ

/-- Witness store for `c6_reconstruction`: the chain `1 <- 2 <- 3` with
recorded chain lengths 5, 6, 7; blocks are their own ids. -/
def store6 : Store Nat :=
  { getBlockInfo := fun h =>
      if h = 2 then .ok ⟨1, 6⟩
      else if h = 3 then .ok ⟨2, 7⟩
      else .error (.storeFailure 0)
    getBlock := fun h => .ok h }

/-- Witness multiverse for `c6_reconstruction`: the ancestor 1 is cached
with state 5 (its recorded chain length). -/
def w6 : Multiverse Nat :=
  { statesByHash := [(1, .Retained 0)]
    statesByChainLength := [(5, [1])]
    heap := [(0, 5)]
    pins := []
    nextArc := 1 }

/-- Witness for `c6_reconstruction` at concrete inputs: reconstructing
id 3 through uncached ids 3, 2 from cached ancestor 1 yields state 7 =
the store-recorded chain length of 3. -/
theorem c6_reconstruction_witness :
    ∃ rf wf, Multiverse.getFromStorage (σ := Nat) (β := Nat) id
        (fun s _ => Except.ok (s + 1)) store6 3 w6 3 = some (.ok rf wf) ∧
      rf.hash = 3 ∧ alook wf.heap rf.arc = some 7 := by
  obtain ⟨rf, wf, h1, h2, h3, h4, h5, h6⟩ :=
    c6_reconstruction (σ := Nat) (β := Nat) id (fun s _ => Except.ok (s + 1))
      store6 w6 3 1 5 0 [2] 5 7 id 3
      (ParentWalk.step 3 ⟨2, 7⟩ [2] (by decide) rfl rfl rfl
        (ParentWalk.step 2 ⟨1, 6⟩ [] (by decide) rfl rfl rfl ParentWalk.done))
      (by decide) rfl rfl rfl (fun c _ => rfl) rfl
      (fun s b s' h => by
        injection h with h7
        rw [← h7]
        rfl)
      (by decide)
  exact ⟨rf, wf, h1, h2, h3⟩

/-! ### Claim C8: GC effectiveness bound -/

/-- Halving count: how many times the distance to the tip can be cut in
half (the cursor jump `l + (tip - l) / 2` of `gc`) before it falls within
the kept suffix. -/
def hb (d : Nat) : Nat :=
  if d ≤ SUFFIX_TO_KEEP then 0 else 1 + hb ((d + 1) / 2)
termination_by d
decreasing_by
  unfold SUFFIX_TO_KEEP at *
  omega

theorem hb_eq (d : Nat) :
    hb d = if d ≤ SUFFIX_TO_KEEP then 0 else 1 + hb ((d + 1) / 2) := by
  rw [hb]

theorem hb_mono (d1 d2 : Nat) (h : d1 ≤ d2) : hb d1 ≤ hb d2 := by
  induction d2 using Nat.strong_induction_on generalizing d1 with
  | _ d2 ih =>
    by_cases h1 : d1 ≤ SUFFIX_TO_KEEP
    · rw [hb_eq d1, if_pos h1]
      exact Nat.zero_le _
    · have h2 : ¬ d2 ≤ SUFFIX_TO_KEEP := fun hc => h1 (Nat.le_trans h hc)
      rw [hb_eq d1, if_neg h1, hb_eq d2, if_neg h2]
      have h3 := ih ((d2 + 1) / 2)
        (by unfold SUFFIX_TO_KEEP at h2; omega) ((d1 + 1) / 2) (by omega)
      omega

theorem hb_le (k : Nat) : ∀ d, d ≤ SUFFIX_TO_KEEP * 2 ^ k → hb d ≤ k := by
  induction k with
  | zero =>
    intro d h
    rw [hb_eq, if_pos (by simpa using h)]
  | succ k ih =>
    intro d h
    by_cases h1 : d ≤ SUFFIX_TO_KEEP
    · rw [hb_eq, if_pos h1]
      exact Nat.zero_le _
    · rw [hb_eq, if_neg h1]
      have h2 : 2 ^ (k + 1) = 2 * 2 ^ k := by rw [Nat.pow_succ, Nat.mul_comm]
      rw [h2] at h
      unfold SUFFIX_TO_KEEP at h
      have h3 : (d + 1) / 2 ≤ SUFFIX_TO_KEEP * 2 ^ k := by
        unfold SUFFIX_TO_KEEP
        omega
      have h4 := ih ((d + 1) / 2) h3
      omega

theorem hb_le_log (d : Nat) : hb d ≤ Nat.log2 d + 1 := by
  by_cases h : d ≤ SUFFIX_TO_KEEP
  · rw [hb_eq, if_pos h]
    exact Nat.zero_le _
  · apply hb_le
    calc d ≤ 2 ^ (Nat.log2 d + 1) := Nat.le_of_lt (@Nat.lt_log2_self d)
    _ ≤ SUFFIX_TO_KEEP * 2 ^ (Nat.log2 d + 1) :=
      Nat.le_mul_of_pos_left _ (by unfold SUFFIX_TO_KEEP; omega)

theorem sum_singletons (bs : LengthIdx)
    (h : ∀ p ∈ bs, (p.2 : List HeaderId).length = 1) :
    (bs.map (fun p => (p.2 : List HeaderId).length)).sum = bs.length := by
  induction bs with
  | nil => rfl
  | cons p r ih =>
    simp only [List.map_cons, List.sum_cons, h p (List.mem_cons_self _ _),
      List.length_cons, ih (fun q hq => h q (List.mem_cons_of_mem _ hq))]
    omega

/-- A strictly increasing list of chain lengths inside `[a, b]` has at
most `b + 1 - a` entries. -/
theorem idx_length_le (idx : LengthIdx) (b : Nat) : ∀ a : Nat, IdxSorted idx →
    (∀ p ∈ idx, a ≤ p.1) → (∀ p ∈ idx, p.1 ≤ b) → idx.length ≤ b + 1 - a := by
  induction idx with
  | nil =>
    intro a _ _ _
    exact Nat.zero_le _
  | cons p r ih =>
    intro a hs hlo hhi
    rcases List.pairwise_cons.mp hs with ⟨hhd, hrest⟩
    obtain ⟨x, hx⟩ : ∃ x : Nat, p.1 = x := ⟨p.1, rfl⟩
    have h1 : ∀ q ∈ r, x + 1 ≤ q.1 := by
      intro q hq
      obtain ⟨y, hy⟩ : ∃ y : Nat, q.1 = y := ⟨q.1, rfl⟩
      have h5 : x < y := by
        have h6 := hhd q hq
        rw [hx, hy] at h6
        exact h6
      rw [hy]
      exact h5
    have h2 := ih (x + 1) hrest h1 (fun q hq => hhi q (List.mem_cons_of_mem _ hq))
    have h3 : a ≤ x := by
      have := hlo p (List.mem_cons_self _ _)
      rwa [hx] at this
    have h4 : x ≤ b := by
      have := hhi p (List.mem_cons_self _ _)
      rwa [hx] at this
    rw [List.length_cons]
    omega

/-- Inserting a key above every existing key appends a fresh singleton
bucket at the end of the index. -/
theorem idxInsert_append (idx : LengthIdx) (l : ChainLength) (k : HeaderId)
    (hgt : ∀ p ∈ idx, p.1 < l) : idxInsert idx l k = idx ++ [(l, [k])] := by
  induction idx with
  | nil => rfl
  | cons p r ih =>
    rcases p with ⟨l0, s⟩
    have h0 : l0 < l := hgt (l0, s) (List.mem_cons_self _ _)
    rw [idxInsert, if_neg (Nat.lt_asymm h0), if_neg (Nat.ne_of_gt h0),
      ih (fun q hq => hgt q (List.mem_cons_of_mem _ hq)), List.cons_append]

/-- Counting the surviving below-threshold buckets of a scan with no
pins: a bucket past the cursor is kept and pushes the cursor halfway to
the tip, every other bucket is entirely collected, so at most
`hb (tip - toKeep)` buckets survive. -/
theorem gcBelow_length_le (tip thr : Nat) (bs : LengthIdx) :
    ∀ (toKeep : Nat) (t : List (HeaderId × GcEntry)) (bs' : LengthIdx)
      (t' : List (HeaderId × GcEntry)),
      thr + SUFFIX_TO_KEEP = tip →
      (∀ p ∈ bs, p.1 < thr) →
      (∀ p ∈ bs, (p.2 : List HeaderId).Nodup) →
      (t.map Prod.fst).Nodup →
      ArcInjT t →
      gcBelow [] tip toKeep bs t = some (bs', t') →
      bs'.length ≤ hb (tip - toKeep) := by
  induction bs with
  | nil =>
    intro toKeep t bs' t' _ _ _ _ _ hres
    simp only [gcBelow, Option.some.injEq, Prod.mk.injEq] at hres
    obtain ⟨h1, h2⟩ := hres
    subst h1
    exact Nat.zero_le _
  | cons b rest ih =>
    intro toKeep t bs' t' htt hlt hnd htk hinj hres
    rcases b with ⟨l, hs⟩
    obtain ⟨lN, rfl⟩ : ∃ x : Nat, x = l := ⟨l, rfl⟩
    have htt' : thr + 50 = tip := htt
    have hl : lN < thr := hlt (lN, hs) (List.mem_cons_self _ _)
    have hltrest : ∀ p ∈ rest, p.1 < thr :=
      fun p hp => hlt p (List.mem_cons_of_mem _ hp)
    have hndhd : hs.Nodup := hnd (lN, hs) (List.mem_cons_self _ _)
    have hndrest : ∀ p ∈ rest, (p.2 : List HeaderId).Nodup :=
      fun p hp => hnd p (List.mem_cons_of_mem _ hp)
    by_cases hkeep : toKeep ≤ lN
    · simp only [gcBelow, if_pos hkeep] at hres
      rcases hrec : gcBelow [] tip (lN + (tip - lN) / 2) rest t with _ | ⟨rest', t1⟩
      · simp [hrec] at hres
      · simp only [hrec, Option.some.injEq, Prod.mk.injEq] at hres
        obtain ⟨h1, h2⟩ := hres
        subst h1
        have hbnd := ih (lN + (tip - lN) / 2) t rest' t1 htt hltrest hndrest
          htk hinj hrec
        have hmono := hb_mono (tip - (lN + (tip - lN) / 2))
          ((tip - toKeep + 1) / 2) (by omega)
        have hunf : hb (tip - toKeep) = 1 + hb ((tip - toKeep + 1) / 2) := by
          rw [hb_eq, if_neg (by unfold SUFFIX_TO_KEEP; omega)]
        rw [List.length_cons]
        omega
    · simp only [gcBelow, if_neg hkeep] at hres
      rcases hcb : collectBucket [] hs t with _ | ⟨hs1, t1⟩
      · simp [hcb] at hres
      · simp only [hcb] at hres
        rcases hrec : gcBelow [] tip toKeep rest t1 with _ | ⟨rest', t2⟩
        · simp [hrec] at hres
        · simp only [hrec, Option.some.injEq, Prod.mk.injEq] at hres
          obtain ⟨h1, h2⟩ := hres
          subst h1
          have hs1nil : hs1 = [] := by
            cases hhs1 : hs1 with
            | nil => rfl
            | cons x xs =>
              obtain ⟨a, -, hc⟩ :=
                collectBucket_survivors [] hs t hs1 t1 hndhd htk hinj hcb x
                  (by rw [hhs1]; exact List.mem_cons_self _ _)
              simp at hc
          obtain ⟨s1, s2, s3, s4, s5, s6, s7⟩ :=
            collectBucket_spec [] hs t hs1 t1 hndhd htk hcb
          have htk1 : (t1.map Prod.fst).Nodup := htk.sublist s5
          have hinj1 : ArcInjT t1 := arcInj_of_spec t t1 hinj s4
          have hbnd := ih toKeep t1 rest' t2 htt hltrest hndrest htk1 hinj1 hrec
          rw [hs1nil]
          simpa using hbnd

/-- One iteration of the linear-chain scenario: `add` the block of chain
length `l` under the fresh id `l + 1`, immediately drop the returned pin
and run `gc`. -/
def scnStep (w : Multiverse Nat) (l : Nat) : Option (Multiverse Nat) :=
  ((w.add id (l + 1) l).2.dropRef (w.add id (l + 1) l).1).gc

/-- The linear-chain scenario of the spec: seed with the genesis block at
length 0 and iterate `scnStep` for lengths `1, …, n`, so `scn n` is the
world after the block of length `n` (the tip) was added and collected. -/
def scn : Nat → Option (Multiverse Nat)
  | 0 => scnStep (Multiverse.new Nat) 0
  | n + 1 =>
    match scn n with
    | none => none
    | some w => scnStep w (n + 1)

/-- Invariant of the linear-chain scenario after the block of length `n`:
well-formed, no live pins, all index buckets are singletons holding the
id `length + 1`, the table is in bijection with the buckets, keys are
bounded by the tip `n` which sits in the last bucket, and the bucket
count obeys the halving bound. -/
structure SCN (n : Nat) (w : Multiverse Nat) : Prop where
  wf : WF id w
  pinsNil : w.pins = []
  single : ∀ p ∈ w.statesByChainLength, (p.2 : List HeaderId) = [p.1 + 1]
  count : w.statesByHash.length = w.statesByChainLength.length
  keyBound : ∀ p ∈ w.statesByChainLength, p.1 ≤ n
  tip : w.statesByChainLength.getLast? = some (n, [n + 1])
  tBound : ∀ k e, alook w.statesByHash k = some e → k ≤ n + 1
  nb : w.statesByChainLength.length ≤ hb n + SUFFIX_TO_KEEP + 1

/-- The world after the first scenario iteration (genesis at length 0,
pin dropped, `gc` a no-op below the kept suffix). -/
def w8a : Multiverse Nat :=
  { statesByHash := [(1, .Retained 0)]
    statesByChainLength := [(0, [1])]
    heap := [(0, 0)]
    pins := []
    nextArc := 1 }

theorem scn_zero : scn 0 = some w8a := rfl

theorem scn_zero_SCN : SCN 0 w8a := by
  refine ⟨?_, rfl, by decide, rfl, by decide, rfl, ?_, ?_⟩
  · exact reach_WF id w8a
      (Reach.gcStep _ _
        (Reach.dropStep _ ⟨1, 0⟩
          (Reach.addStep (Multiverse.new Nat) 1 0 Reach.init rfl)) rfl)
  · intro k e hk
    by_cases h1 : (1 : Nat) = k
    · omega
    · simp only [alook, if_neg h1] at hk
      cases hk
  · exact Nat.succ_le_succ (Nat.zero_le _)

theorem scn_step (n m : Nat) (w : Multiverse Nat) (h : SCN n w) (hm : n < m) :
    ∃ w', scnStep w m = some w' ∧ SCN m w' := by
  have hfresh : alook w.statesByHash (m + 1) = none := by
    rcases he : alook w.statesByHash (m + 1) with _ | e
    · rfl
    · have h1 := h.tBound (m + 1) e he
      omega
  have hwf1 : WF id (w.add id (m + 1) m).2 :=
    insert_WF id w (m + 1) m h.wf hfresh
  set w2 : Multiverse Nat :=
    (w.add id (m + 1) m).2.dropRef (w.add id (m + 1) m).1 with hw2
  have hwf2 : WF id w2 := drop_WF id _ _ hwf1
  have hpins2 : w2.pins = [] := by
    show (w.nextArc :: w.pins).erase w.nextArc = []
    rw [List.erase_cons_head, h.pinsNil]
  have hidx2 : w2.statesByChainLength =
      w.statesByChainLength ++ [(m, [m + 1])] := by
    show idxInsert w.statesByChainLength m (m + 1) = _
    exact idxInsert_append _ _ _
      (fun p hp => Nat.lt_of_le_of_lt (h.keyBound p hp) hm)
  have hhash2 : w2.statesByHash =
      tset w.statesByHash (m + 1) (.Retained w.nextArc) := rfl
  have hkeys2 : w2.statesByHash.map Prod.fst =
      w.statesByHash.map Prod.fst ++ [m + 1] :=
    keys_tset_absent w.statesByHash (m + 1) (.Retained w.nextArc) hfresh
  have hlen2 : w2.statesByHash.length = w.statesByHash.length + 1 := by
    have h1 := congrArg List.length hkeys2
    simpa using h1
  have hcount2 : w2.statesByHash.length = w2.statesByChainLength.length := by
    rw [hlen2, hidx2, List.length_append, h.count]
    rfl
  have hsingle2 : ∀ p ∈ w2.statesByChainLength,
      (p.2 : List HeaderId) = [p.1 + 1] := by
    intro p hp
    rw [hidx2] at hp
    rcases List.mem_append.mp hp with h1 | h1
    · exact h.single p h1
    · rcases List.mem_singleton.mp h1 with rfl
      rfl
  have hkeyB2 : ∀ p ∈ w2.statesByChainLength, p.1 ≤ m := by
    intro p hp
    rw [hidx2] at hp
    rcases List.mem_append.mp hp with h1 | h1
    · exact Nat.le_of_lt (Nat.lt_of_le_of_lt (h.keyBound p h1) hm)
    · rcases List.mem_singleton.mp h1 with rfl
      exact Nat.le_refl _
  have htip2 : w2.statesByChainLength.getLast? = some (m, [m + 1]) := by
    rw [hidx2]
    exact List.getLast?_concat _
  have htB2 : ∀ k e, alook w2.statesByHash k = some e → k ≤ m + 1 := by
    intro k e hk
    by_cases h1 : k = m + 1
    · omega
    · rw [hhash2,
        alook_tset_ne w.statesByHash k (m + 1) _ (fun hc => h1 hc.symm)] at hk
      have h2 := h.tBound k e hk
      omega
  have hidxlen : w.statesByChainLength.length ≤ n + 1 := by
    have h1 := idx_length_le w.statesByChainLength n 0 h.wf.sorted
      (fun p _ => Nat.zero_le _) h.keyBound
    omega
  by_cases hc : SUFFIX_TO_KEEP ≤ m
  · -- the suffix threshold exists: a real scan runs
    have hc' : (50 : Nat) ≤ m := hc
    have hanc : nthAncestor m SUFFIX_TO_KEEP =
        some (m - SUFFIX_TO_KEEP) := by
      unfold nthAncestor
      rw [if_pos hc]
    set thr : Nat := m - SUFFIX_TO_KEEP with hthrdef
    have hthr50 : thr + 50 = m := by
      show m - 50 + 50 = m
      omega
    set below := w2.statesByChainLength.takeWhile (fun b => decide (b.1 < thr))
      with hbelow
    set above := w2.statesByChainLength.dropWhile (fun b => decide (b.1 < thr))
      with habove
    have hsubB : below.Sublist w2.statesByChainLength := List.takeWhile_sublist _
    have hsubA : above.Sublist w2.statesByChainLength := List.dropWhile_sublist _
    have hndB : ∀ p ∈ below, (p.2 : List HeaderId).Nodup :=
      fun p hp => hwf2.bnodup p (hsubB.subset hp)
    have hdisjB : List.Pairwise (fun p q => ∀ k : HeaderId, k ∈ p.2 → k ∉ q.2)
        below := by
      have h1 := hwf2.bdisj
      unfold BucketsDisjoint at h1
      exact List.Pairwise.sublist hsubB h1
    have hinB : ∀ p ∈ below, ∀ k ∈ p.2, (alook w2.statesByHash k).isSome :=
      fun p hp => hwf2.i1 p (hsubB.subset hp)
    obtain ⟨res, hgb0⟩ := Option.isSome_iff_exists.mp
      (gcBelow_isSome w2.pins m below 0 w2.statesByHash hndB hdisjB hinB)
    rcases res with ⟨bs', t'⟩
    set w' : Multiverse Nat :=
      ⟨t', bs' ++ above, w2.heap, w2.pins, w2.nextArc⟩ with hw'
    have hgc : w2.gc = some w' := by
      rw [gc_eq_tip_case w2 m [m + 1] htip2,
        gcWithTip_some w2 m thr hanc]
      unfold gcRun
      rw [hgb0, Option.map_some']
    have hgb : gcBelow [] m 0 below w2.statesByHash = some (bs', t') := by
      rw [← hpins2]
      exact hgb0
    obtain ⟨g1, g2, g3, g4, g5, g6, g7, g8⟩ :=
      gcBelow_spec w2.pins m below 0 w2.statesByHash bs' t'
        hndB hdisjB (fun p hp => hwf2.bne p (hsubB.subset hp)) hinB
        hwf2.tkeys hgb0
    have hsingleB : ∀ p ∈ bs', (p.2 : List HeaderId) = [p.1 + 1] := by
      intro p hp
      obtain ⟨hne, hs0, hmem, hsub⟩ := g3 p hp
      have h1 : hs0 = [p.1 + 1] := hsingle2 (p.1, hs0) (hsubB.subset hmem)
      rw [h1] at hsub
      rcases List.sublist_singleton.mp hsub with h2 | h2
      · exact absurd h2 hne
      · exact h2
    have hkeyBs' : ∀ p ∈ bs', p.1 ≤ m := by
      intro p hp
      obtain ⟨-, hs0, hmem, -⟩ := g3 p hp
      exact hkeyB2 (p.1, hs0) (hsubB.subset hmem)
    have hsplitlen : below.length + above.length =
        w2.statesByChainLength.length := by
      rw [hbelow, habove, ← List.length_append, List.takeWhile_append_dropWhile]
    have hsumB : (below.map (fun p => (p.2 : List HeaderId).length)).sum =
        below.length :=
      sum_singletons below
        (fun p hp => by rw [hsingle2 p (hsubB.subset hp)]; rfl)
    have hsumB' : (bs'.map (fun p => (p.2 : List HeaderId).length)).sum =
        bs'.length :=
      sum_singletons bs' (fun p hp => by rw [hsingleB p hp]; rfl)
    have hcount' : t'.length = bs'.length + above.length := by
      rw [hsumB, hsumB'] at g7
      omega
    have habove_ne : above ≠ [] := by
      intro hnil
      have hmem := List.mem_of_mem_getLast? htip2
      have hall := List.dropWhile_eq_nil_iff.mp hnil (m, [m + 1]) hmem
      have hlt : m < thr := by simpa using hall
      omega
    have htip' : (bs' ++ above).getLast? = some (m, [m + 1]) := by
      rw [List.getLast?_append_of_ne_nil bs' habove_ne, habove,
        ← List.getLast?_append_of_ne_nil
          (w2.statesByChainLength.takeWhile (fun b => decide (b.1 < thr)))
          habove_ne, List.takeWhile_append_dropWhile]
      exact htip2
    have hblen : bs'.length ≤ hb m := by
      have h1 := gcBelow_length_le m thr below 0 w2.statesByHash bs' t'
        (by show thr + SUFFIX_TO_KEEP = m; exact hthr50)
        (fun p hp => mem_below_lt w2.statesByChainLength thr p hp)
        hndB hwf2.tkeys hwf2.arcInj hgb
      rwa [Nat.sub_zero] at h1
    have halen : above.length ≤ 51 := by
      have hsorted : IdxSorted above := by
        have h1 := hwf2.sorted
        unfold IdxSorted at h1
        exact List.Pairwise.sublist hsubA h1
      have h1 := idx_length_le above m thr hsorted
        (fun p hp => Nat.le_of_not_lt
          (mem_above_ge w2.statesByChainLength hwf2.sorted thr p hp))
        (fun p hp => hkeyB2 p (hsubA.subset hp))
      omega
    refine ⟨w', hgc, ?_, ?_, ?_, ?_, ?_, ?_, ?_, ?_⟩
    · exact gc_WF id w2 w' hwf2 hgc
    · exact hpins2
    · intro p hp
      rcases List.mem_append.mp hp with h1 | h1
      · exact hsingleB p h1
      · exact hsingle2 p (hsubA.subset h1)
    · show t'.length = (bs' ++ above).length
      rw [hcount', List.length_append]
    · intro p hp
      rcases List.mem_append.mp hp with h1 | h1
      · exact hkeyBs' p h1
      · exact hkeyB2 p (hsubA.subset h1)
    · exact htip'
    · intro k e hk
      obtain ⟨e0, he0, -⟩ := g5 k e hk
      exact htB2 k e0 he0
    · show (bs' ++ above).length ≤ hb m + SUFFIX_TO_KEEP + 1
      rw [List.length_append]
      show _ ≤ hb m + 50 + 1
      omega
  · -- the tip is still inside the kept suffix: gc is a no-op
    have hc' : ¬ (50 : Nat) ≤ m := hc
    have hanc : nthAncestor m SUFFIX_TO_KEEP = none := by
      unfold nthAncestor
      rw [if_neg hc]
    have hgc : w2.gc = some w2 := by
      rw [gc_eq_tip_case w2 m [m + 1] htip2]
      exact gcWithTip_none w2 m hanc
    refine ⟨w2, hgc, hwf2, hpins2, hsingle2, hcount2, hkeyB2, htip2, htB2, ?_⟩
    have hb0 : hb m = 0 := by
      rw [hb_eq, if_pos (by show m ≤ 50; omega)]
    rw [hcount2] at hlen2
    rw [hb0]
    show _ ≤ 0 + 50 + 1
    rw [hidx2, List.length_append]
    have h1 : w.statesByChainLength.length ≤ 49 := by omega
    simp only [List.length_singleton]
    omega

theorem scn_spec (n : Nat) : ∃ w, scn n = some w ∧ SCN n w := by
  induction n with
  | zero => exact ⟨w8a, scn_zero, scn_zero_SCN⟩
  | succ n ih =>
    obtain ⟨w, hw, hs⟩ := ih
    obtain ⟨w', hstep, hs'⟩ := scn_step n (n + 1) w hs (Nat.lt_succ_self n)
    refine ⟨w', ?_, hs'⟩
    show (match scn n with
      | none => none
      | some w => scnStep w (n + 1)) = some w'
    rw [hw]
    exact hstep

/-- An arbitrary run of the scenario loop: one `scnStep` (add, drop the
pin, `gc`) per listed chain length. -/
def scnRun : Multiverse Nat → List Nat → Option (Multiverse Nat)
  | w, [] => some w
  | w, l :: ls =>
    match scnStep w l with
    | none => none
    | some w' => scnRun w' ls

theorem scnRun_spec (ls : List Nat) : ∀ (n : Nat) (w : Multiverse Nat),
    SCN n w → List.Chain (fun a b => a < b) n ls →
    ∃ w', scnRun w ls = some w' ∧ SCN (ls.getLastD n) w' := by
  induction ls with
  | nil =>
    intro n w hs _
    exact ⟨w, rfl, hs⟩
  | cons l ls ih =>
    intro n w hs hch
    rcases List.chain_cons.mp hch with ⟨hlt, hch2⟩
    obtain ⟨w1, hstep, hs1⟩ := scn_step n l w hs hlt
    obtain ⟨w2, hrun, hs2⟩ := ih l w1 hs1 hch2
    refine ⟨w2, ?_, ?_⟩
    · show (match scnStep w l with
        | none => none
        | some w' => scnRun w' ls) = some w2
      rw [hstep]
      exact hrun
    · rw [List.getLastD_cons]
      exact hs2

/-- C8: GC effectiveness bound.  Starting from the genesis world, any
run of the loop — `add` at strictly increasing chain lengths, the pin
dropped each iteration, `gc` after every `add` — never panics and ends
with `nr_states() ≤ SUFFIX_TO_KEEP + ⌊log₂ tip⌋ + c` for the constant
`c = 2`; and in the literal 10 000-block linear-chain scenario,
`nr_states() ≤ 64` after the loop. -/
theorem c8_gc_effectiveness :
    (∀ (ls : List Nat) (w : Multiverse Nat),
      List.Chain (fun a b => a < b) 0 ls → scnRun w8a ls = some w →
      w.nrStates ≤ SUFFIX_TO_KEEP + Nat.log2 (ls.getLastD 0) + 2) ∧
    (∃ w, scn 10000 = some w ∧ w.nrStates ≤ 64) := by
  constructor
  · intro ls w hch hw
    obtain ⟨w1, hw1, hs⟩ := scnRun_spec ls 0 w8a scn_zero_SCN hch
    rw [hw] at hw1
    injection hw1 with he
    subst he
    show w.statesByHash.length ≤ SUFFIX_TO_KEEP + Nat.log2 (ls.getLastD 0) + 2
    rw [hs.count]
    have h4 : hb (ls.getLastD 0) ≤ Nat.log2 (ls.getLastD 0) + 1 :=
      hb_le_log (ls.getLastD 0)
    have h5 : w.statesByChainLength.length ≤ hb (ls.getLastD 0) + 50 + 1 := hs.nb
    show _ ≤ 50 + Nat.log2 (ls.getLastD 0) + 2
    omega
  · obtain ⟨w, hw, hs⟩ := scn_spec 10000
    refine ⟨w, hw, ?_⟩
    have h2 : w.statesByChainLength.length ≤ hb 10000 + 50 + 1 := hs.nb
    have h3 : hb 10000 ≤ 8 := hb_le 8 10000 (by norm_num [SUFFIX_TO_KEEP])
    show w.statesByHash.length ≤ 64
    rw [hs.count]
    omega

/-- The world after running the scenario at length 60 from the genesis
world: the tip sits in the new bucket, the genesis bucket is kept by the
cursor. -/
def w8b : Multiverse Nat :=
  { statesByHash := [(1, .Retained 0), (61, .Retained 1)]
    statesByChainLength := [(0, [1]), (60, [61])]
    heap := [(1, 60), (0, 0)]
    pins := []
    nextArc := 2 }

/-- Witness for `c8_gc_effectiveness`: the one-step run at length 60
from the genesis world. -/
theorem c8_gc_effectiveness_witness :
    w8b.nrStates ≤ SUFFIX_TO_KEEP + Nat.log2 60 + 2 :=
  c8_gc_effectiveness.1 [60] w8b
    (List.Chain.cons (by decide) List.Chain.nil) rfl

end MV
